import Mathlib

/-!
Verification of the REMI+ data-processing pipeline
(`constants.py`, `chord_recognition.py`, `utils.py`, `midi2remi.py`,
`remi2midi.py`) via a shallow embedding in Lean 4.

Conventions of the embedding:
* Python integers are `ℤ`/`ℕ`; Python floats are modelled by exact `ℚ`
  arithmetic (float rounding never decides any property proved here;
  numpy's `-inf` sentinel in the DP is modelled by `WithBot ℤ`).
* Python dictionaries are association lists in insertion order (Python
  dicts preserve insertion order, and iteration order matters for
  first-minimum tie-breaks).
* Code that can raise a Python exception is modelled with `Option`/`Except`
  (`none`/`.error` = some exception was raised; distinct exception types
  are conflated).
* External collaborators (the `pretty_midi` library) are modelled by
  structures carrying exactly the data the core code reads, and by
  function parameters for the name/program lookups (spec §6 interface).
-/

namespace ECP

/-! ## Constants (src/constants.py) -/

/-- `DEFAULT_POS_PER_QUARTER = 12`. -/
def DEFAULT_POS_PER_QUARTER : ℕ := 12

/-- `DEFAULT_VELOCITY_BINS = np.linspace(0, 128, 33, dtype=int)`.
The 33 linspace values are exactly `4*k`, so the integer cast is exact. -/
def DEFAULT_VELOCITY_BINS : List ℤ := (List.range 33).map (fun k : ℕ => 4 * (k : ℤ))

/-- `DEFAULT_TEMPO_BINS = np.linspace(0, 240, 33, dtype=int)`.
The linspace values are `7.5*k`; `dtype=int` truncates toward zero, which for
these nonnegative values is `(15*k) / 2` in truncating integer division. -/
def DEFAULT_TEMPO_BINS : List ℤ := (List.range 33).map (fun k : ℕ => (15 * (k : ℤ)) / 2)

/-- `np.arange(start, stop, step)` over naturals (length `⌈(stop-start)/step⌉`). -/
def arangeNat (start stop step : ℕ) : List ℕ :=
  (List.range ((stop - start + step - 1) / step)).map (fun k => start + step * k)

/-- `DEFAULT_DURATION_BINS`: sorted concatenation of the six `np.arange`
pieces (note `np.sort` keeps duplicates; the value 21 appears twice). -/
def DEFAULT_DURATION_BINS : List ℕ :=
  List.insertionSort (· ≤ ·)
    (arangeNat 1 13 1 ++ (arangeNat 12 24 3).drop 1 ++ (arangeNat 13 24 4).drop 1 ++
      arangeNat 24 48 6 ++ arangeNat 48 192 12 ++ arangeNat 192 769 24)

/-- `DEFAULT_RESOLUTION = 480`. -/
def DEFAULT_RESOLUTION : ℕ := 480

def TIME_SIGNATURE_KEY : String := "Time Signature"
def BAR_KEY : String := "Bar"
def POSITION_KEY : String := "Position"
def INSTRUMENT_KEY : String := "Instrument"
def PITCH_KEY : String := "Pitch"
def VELOCITY_KEY : String := "Velocity"
def DURATION_KEY : String := "Duration"
def TEMPO_KEY : String := "Tempo"
def CHORD_KEY : String := "Chord"
def EOS_TOKEN : String := "<eos>"

/-- `PITCH_CLASSES` table. -/
def PITCH_CLASSES : List String :=
  ["C", "C#", "D", "D#", "E", "F"] ++ ["F#", "G", "G#", "A", "A#", "B"]

/-- `CHORD_MAPS` dict; Python `.get` returns `None` for a key outside the
seven qualities (unreachable in `scoring`), modelled as `[]`. -/
def CHORD_MAPS (q : String) : List ℕ :=
  if q = "maj" then [0, 4]
  else if q = "min" then [0, 3]
  else if q = "dim" then [0, 3, 6]
  else if q = "aug" then [0, 4, 8]
  else if q = "dom7" then [0, 4, 10]
  else if q = "maj7" then [0, 4, 11]
  else if q = "min7" then [0, 3, 10]
  else []

/-- `CHORD_INSIDERS` dict. -/
def CHORD_INSIDERS (q : String) : List ℕ :=
  if q = "maj" then [7]
  else if q = "min" then [7]
  else if q = "dim" then [9]
  else if q = "aug" then []
  else if q = "dom7" then [7]
  else if q = "maj7" then [7]
  else if q = "min7" then [7]
  else []

/-- `CHORD_OUTSIDERS_1` dict. -/
def CHORD_OUTSIDERS_1 (q : String) : List ℕ :=
  if q = "maj" then [2, 5, 9]
  else if q = "min" then [2, 5, 8]
  else if q = "dim" then [2, 5, 10]
  else if q = "aug" then [2, 5, 9]
  else if q = "dom7" then [2, 5, 9]
  else if q = "maj7" then [2, 5, 9]
  else if q = "min7" then [2, 5, 8]
  else []

/-- `CHORD_OUTSIDERS_2` dict. -/
def CHORD_OUTSIDERS_2 (q : String) : List ℕ :=
  if q = "maj" then [1, 3, 6, 8, 10, 11]
  else if q = "min" then [1, 4, 6, 9, 11]
  else if q = "dim" then [1, 4, 7, 8, 11]
  else if q = "aug" then [1, 3, 6, 7, 10]
  else if q = "dom7" then [1, 3, 6, 8, 11]
  else if q = "maj7" then [1, 3, 6, 8, 10]
  else if q = "min7" then [1, 4, 6, 9, 11]
  else []

/-! ## Generic helpers for Python/numpy primitives -/

/-- Python `int(x)` on a rational: truncation toward zero (`Int.tdiv` is
T-division, unlike the flooring `Int./`). -/
def pyTrunc (q : ℚ) : ℤ := Int.tdiv q.num (q.den : ℤ)

/-- Python `round(x)` (round-half-to-even, "banker's rounding"). -/
def pyRound (q : ℚ) : ℤ :=
  let f := ⌊q⌋
  let r := q - (f : ℚ)
  if r < 1 / 2 then f
  else if 1 / 2 < r then f + 1
  else if f % 2 = 0 then f else f + 1

/-- List-level check that `p` begins `s`. -/
def listIsPre : List Char → List Char → Bool
  | [], _ => true
  | _ :: _, [] => false
  | a :: as1, b :: bs => a == b && listIsPre as1 bs

/-- List-level substring containment (occurs anywhere). -/
def subIn (p : List Char) : List Char → Bool
  | [] => p.isEmpty
  | c :: t => listIsPre p (c :: t) || subIn p t

/-- Python `pat in s` (substring containment). -/
def strIn (pat s : String) : Bool := subIn pat.data s.data

/-- Python `s.split('_')[-1]`. `String.splitOn` never returns `[]`, so the
`getD` default is unreachable. -/
def lastField (s : String) : String := ((s.splitOn "_").getLast?).getD ""

/-- Python `int(s)` as used by the decoder on token value fields. Matches
Python for unsigned decimal digit strings; the decoder tokens this file
reasons about never carry signs or whitespace. `none` = `ValueError`. -/
def parseNat (s : String) : Option ℕ := s.toNat?

/-- `np.argmin(np.abs(bins - x))`: first index attaining the minimum
absolute difference (numpy returns the first minimum). -/
def argminAbsAux (x : ℚ) : List ℚ → ℕ → ℕ → ℚ → ℕ
  | [], _, bi, _ => bi
  | v :: t, i, bi, bv =>
      if |v - x| < bv then argminAbsAux x t (i + 1) i |v - x|
      else argminAbsAux x t (i + 1) bi bv

/-- `np.argmin(np.abs(l - x))`; numpy raises on an empty array
(unreachable here: every bin table is nonempty), modelled as 0. -/
def argminAbs (l : List ℚ) (x : ℚ) : ℕ :=
  match l with
  | [] => 0
  | v :: t => argminAbsAux x t 1 0 |v - x|

/-- `np.searchsorted(grids, x, side='right')` for a sorted array: the number
of elements `≤ x`. -/
def searchsortedRight (l : List ℚ) (x : ℚ) : ℕ := l.countP (fun g => decide (g ≤ x))

/-! ## Item / Event model (src/music_obj.py)

Python's `Item` is a single class whose `pitch` holds an int for notes and
tempos but a string (chord label) for chords, and whose `instrument` holds a
program number or the string `'drum'`; the optional/mixed-typed fields are
modelled with `Option` and small sum types. The `text` attribute of `Event`
is a human-readable annotation never read by any code under verification and
is omitted. -/

inductive PitchVal where
  | num (v : ℤ)
  | str (s : String)
deriving DecidableEq

inductive InstrVal where
  | prog (p : ℤ)
  | drum
deriving DecidableEq

structure Item where
  name : String
  start : ℤ
  stop : Option ℤ
  velocity : Option ℤ
  pitch : Option PitchVal
  instrument : Option InstrVal
deriving DecidableEq

inductive EValue where
  | i (v : ℤ)
  | s (v : String)
deriving DecidableEq

structure Event where
  name : String
  time : Option ℚ
  value : EValue
deriving DecidableEq

/-- Rendering of an event value inside `f'{e.name}_{e.value}'`. -/
def EValue.render : EValue → String
  | .i v => toString v
  | .s v => v

/-- `f'{e.name}_{e.value}'`. -/
def renderToken (e : Event) : String := e.name ++ "_" ++ e.value.render

/-! ## Chord recognition (src/chord_recognition.py) -/

/-- `np.roll(chroma, -root)`: rotate left by `root` positions. -/
def rollLeft (l : List ℕ) (r : ℕ) : List ℕ := l.drop r ++ l.take r

/-- `np.where(v == 1)[0]`: ascending indices whose entry equals 1. -/
def whereEqOne (l : List ℕ) : List ℕ :=
  (List.range l.length).filter (fun j => l.getD j 0 == 1)

/-- `sequencing(chroma)`: for every index with a truthy entry, the root is
that index and the interval set is the list of active offsets of the rotated
vector. The returned association list is in ascending root order (Python
dict insertion order). -/
def sequencing (chroma : List ℕ) : List (ℕ × List ℕ) :=
  (List.range chroma.length).filterMap (fun index =>
    if chroma.getD index 0 ≠ 0 then
      some (index, whereEqOne (rollLeft chroma index))
    else none)

/-- The body of `scoring`'s loop for one candidate: the score and quality
assigned to one interval set. In the XOR branch the Python code tests
`if 3 in sequence ... elif 4 in sequence`; when 3 is absent, 4 is present,
so the `else` arm below is that `elif` arm. -/
def scoreQuality (sequence : List ℕ) : ℤ × String :=
  if 3 ∉ sequence ∧ 4 ∉ sequence then (-100, "None")
  else if 3 ∈ sequence ∧ 4 ∈ sequence then (-100, "None")
  else
    let quality :=
      if 3 ∈ sequence then
        if 6 ∈ sequence then "dim"
        else if 10 ∈ sequence then "min7"
        else "min"
      else
        if 8 ∈ sequence then "aug"
        else if 10 ∈ sequence then "dom7"
        else if 11 ∈ sequence then "maj7"
        else "maj"
    let maps := CHORD_MAPS quality
    let notes := sequence.filter (fun n => !(maps.contains n))
    let score := notes.foldl (fun acc n =>
      if (CHORD_OUTSIDERS_1 quality).contains n then acc - 1
      else if (CHORD_OUTSIDERS_2 quality).contains n then acc - 2
      else if (CHORD_INSIDERS quality).contains n then acc + 10
      else acc) 0
    (score, quality)

/-- `scoring(candidates)`: the two dicts (scores, qualities), keyed like the
input candidates. -/
def scoring (candidates : List (ℕ × List ℕ)) : List (ℕ × ℤ) × List (ℕ × String) :=
  (candidates.map (fun p => (p.1, (scoreQuality p.2).1)),
   candidates.map (fun p => (p.1, (scoreQuality p.2).2)))

/-- `np.sum(chroma, axis=1)`: per-pitch-class row sums of a chroma window. -/
def rowSums (chroma : List (List ℤ)) : List ℤ :=
  chroma.map (fun row => row.foldl (· + ·) 0)

/-- `np.array([1 if c > threshold else 0 for c in chroma])`. -/
def binarize (sums : List ℤ) (threshold : ℤ) : List ℕ :=
  sums.map (fun c => if threshold < c then 1 else 0)

/-- `find_chord`'s `sorted_notes`: `[int(i % 12) for i, v in enumerate(chroma) if v > 0]`. -/
def fcSortedNotes (chromaB : List ℕ) : List ℕ :=
  (List.range chromaB.length).filterMap (fun i =>
    if 0 < chromaB.getD i 0 then some (i % 12) else none)

/-- `find_chord`'s `__root_note` filter: roots whose score equals the max. -/
def fcRootCands (scores : List (ℕ × ℤ)) (mx : ℤ) : List ℕ :=
  scores.filterMap (fun p => if p.2 = mx then some p.1 else none)

/-- `find_chord`'s root selection: the unique maximal root, or else the
first entry of `sorted_notes` that is among the tied maxima (`none` models
the `break`-less loop leaving `root_note` unbound, a `NameError`). -/
def fcRoot (scores : List (ℕ × ℤ)) (sorted_notes : List ℕ) (mx : ℤ) : Option ℕ :=
  if (fcRootCands scores mx).length = 1 then (fcRootCands scores mx).head?
  else sorted_notes.find? (fun n => (fcRootCands scores mx).contains n)

/-- `find_chord`'s final tuple: `qualities.get(root)`, `scores.get(root)` and
the two `PITCH_CLASSES` lookups (`none` = out-of-range index or missing key). -/
def fcResult (qualities : List (ℕ × String)) (scores : List (ℕ × ℤ))
    (root_note bass_note : ℕ) : Option (String × String × String × ℤ) :=
  match qualities.lookup root_note, scores.lookup root_note,
        PITCH_CLASSES.get? root_note, PITCH_CLASSES.get? bass_note with
  | some quality, some score, some rootStr, some bassStr =>
      some (rootStr, quality, bassStr, score)
  | _, _, _, _ => none

/-- `find_chord(chroma, threshold)`. The input is the 12×w chroma window
(one row per pitch class); row sums are binarized against the threshold.
`none` models the (unreachable) Python crashes: `sorted_notes[0]` on an
empty list, `max()` of an empty dict, the tie-break loop leaving `root_note`
unbound, or out-of-range `PITCH_CLASSES` indexing. -/
def find_chord (chroma : List (List ℤ)) (threshold : ℤ) :
    Option (String × String × String × ℤ) :=
  let chromaB : List ℕ := binarize (rowSums chroma) threshold
  if chromaB.foldl (· + ·) 0 = 0 then some ("N", "N", "N", 10)
  else
    let candidates := sequencing chromaB
    let scores := (scoring candidates).1
    let qualities := (scoring candidates).2
    match fcSortedNotes chromaB with
    | [] => none
    | bass_note :: rest =>
      match (scores.map (fun p => p.2)).max? with
      | none => none
      | some mx =>
        match fcRoot scores (bass_note :: rest) mx with
        | none => none
        | some root_note => fcResult qualities scores root_note bass_note

/-- A chord candidate `(root, quality, bass, score)`. -/
abbrev Cand := String × String × String × ℤ

/-- The per-start dict of `get_candidates`/`dynamic`: association list
`end_beat ↦ candidate` in insertion order. -/
abbrev CandRow := List (ℕ × Cand)

/-- `candidates`: outer dict `start_beat ↦ CandRow`, insertion order. -/
abbrev CandTable := List (ℕ × CandRow)

/-- Python dict assignment `d[k] = v`: overwrite keeps the key's original
position, a fresh key is appended. -/
def upsert (l : CandRow) (k : ℕ) (v : Cand) : CandRow :=
  match l with
  | [] => [(k, v)]
  | (k', v') :: t => if k' = k then (k, v) :: t else (k', v') :: upsert t k v

/-- `candidates.setdefault(start_beat, {})[end_beat] = cand` on the outer dict. -/
def upsertOuter (l : CandTable) (s e : ℕ) (v : Cand) : CandTable :=
  match l with
  | [] => [(s, upsert [] e v)]
  | (k', row) :: t =>
      if k' = s then (k', upsert row e v) :: t else (k', row) :: upsertOuter t s e v

/-- `get_candidates(chroma, max_tick, intervals)`. `chroma[:, s:e]` slices
each row; `none` propagates a `find_chord` crash. -/
def get_candidates (chroma : List (List ℤ)) (max_tick : ℕ) (intervals : List ℕ) :
    Option CandTable :=
  intervals.foldl (fun acc interval =>
    (List.range max_tick).foldl (fun acc2 start_beat =>
      match acc2 with
      | none => none
      | some table =>
        let end_beat := min (start_beat + interval) max_tick
        let _chroma := chroma.map (fun row => (row.drop start_beat).take (end_beat - start_beat))
        match find_chord _chroma 10 with
        | some c => some (upsertOuter table start_beat end_beat c)
        | none => none) acc) (some [])

/-- A chosen segment `(start_tick, end_tick, label)`. Python builds these as
tuples in `dynamic` and as 3-element lists in `dedupe`; both are triples here. -/
abbrev Seg := ℕ × ℕ × String

/-- `dedupe`'s loop, with the running `(start, end, chord)` state. -/
def dedupeAux (s e : ℕ) (c : String) : List Seg → List Seg
  | [] => [(s, e, c)]
  | nx :: t =>
      if c = nx.2.2 then dedupeAux s nx.2.1 c t
      else (s, e, c) :: dedupeAux nx.1 nx.2.1 nx.2.2 t

/-- `dedupe(chords)`. -/
def dedupe : List Seg → List Seg
  | [] => []
  | c0 :: rest => dedupeAux c0.1 c0.2.1 c0.2.2 rest

/-- The chord label built inside `dynamic`:
`'{root}:{quality}'`, or `'{root}:{quality}/{bass}'` if `root != bass`. -/
def chordLabel (c : Cand) : String :=
  if c.1 = c.2.2.1 then c.1 ++ ":" ++ c.2.1
  else c.1 ++ ":" ++ c.2.1 ++ "/" ++ c.2.2.1

/-- The two arrays of `dynamic`, sized `max_tick + 1` in Python, modelled as
total functions (all theorems confine the touched indices to
`[0, max_tick]`). `scores` entries are floats with `-inf` (`⊥`) sentinels;
all finite values are integers, so `WithBot ℤ` is exact:
`⊥ + s = ⊥`, nothing is `< ⊥`, and `⊥ <` any finite value. -/
structure DPState where
  scores : ℕ → WithBot ℤ
  chords : ℕ → Option Seg

/-- `scores = np.zeros(max_tick+1); scores[1:].fill(np.NINF)` and
`chords = [None] * (max_tick+1)`. -/
def dpInit : DPState :=
  { scores := fun t => if t = 0 then (0 : WithBot ℤ) else ⊥
    chords := fun _ => none }

/-- One candidate step of the DP inner loop. -/
def dpStep (start_tick : ℕ) (st : DPState) (p : ℕ × Cand) : DPState :=
  let end_tick := p.1
  let score : ℤ := p.2.2.2.2
  if st.scores end_tick < st.scores start_tick + (score : WithBot ℤ) then
    { scores := Function.update st.scores end_tick (st.scores start_tick + (score : WithBot ℤ))
      chords := Function.update st.chords end_tick (some (start_tick, end_tick, chordLabel p.2)) }
  else st

/-- `if start_tick in candidates: for ... in candidates.get(start_tick).items()`:
a missing key iterates nothing, i.e. the row defaults to `[]`. -/
def candsAt (table : CandTable) (s : ℕ) : CandRow := (table.lookup s).getD []

/-- The DP fill loop of `dynamic`: `start_tick` ascending from 0 to
`max_tick - 1`, inner loop over the start's candidate dict in order. -/
def dpFill (table : CandTable) (max_tick : ℕ) : DPState :=
  (List.range max_tick).foldl (fun st s => (candsAt table s).foldl (dpStep s) st) dpInit

/-- The backtracking `while start_tick > 0` loop, fuelled (the fuel
`max_tick + 1` given by `dynamic` suffices whenever every predecessor
pointer strictly decreases; `none` models the Python crash on a `None`
entry and a non-terminating pointer chain). Produces the segments in the
order Python appends them (from `max_tick` back to 0). -/
def backtrackAux (chords : ℕ → Option Seg) : ℕ → ℕ → Option (List Seg)
  | 0, _ => none
  | fuel + 1, t =>
      if 0 < t then
        match chords t with
        | none => none
        | some seg => (backtrackAux chords fuel seg.1).map (fun l => seg :: l)
      else some []

/-- `dynamic(candidates, max_tick)`: DP fill, then backtrack from
`max_tick` and reverse. -/
def dynamic (table : CandTable) (max_tick : ℕ) : Option (List Seg) :=
  (backtrackAux (dpFill table max_tick).chords (max_tick + 1) max_tick).map List.reverse

/-- Specification-side predicate: a backtracked segment list, in the order
Python appends it (descending), forms a chain from `t` down to 0 with
strictly increasing segments. -/
def DescChain : List Seg → ℕ → Prop
  | [], t => t = 0
  | seg :: rest, t => seg.2.1 = t ∧ seg.1 < seg.2.1 ∧ DescChain rest seg.1

/-! ## External MIDI data (pretty_midi collaborator, spec §6)

The `pretty_midi.PrettyMIDI` object is an out-of-scope collaborator. The
core code reads only: `resolution`, `get_end_time()`, `time_to_tick` (an
arbitrary monotone converter owned by the library), the time-signature
change list, `get_downbeats()`, `get_beats()` and the chroma matrix. -/

structure TimeSig where
  numerator : ℤ
  denominator : ℤ
  time : ℚ
deriving DecidableEq

structure MidiData where
  resolution : ℕ
  endTime : ℚ
  timeToTick : ℚ → ℤ
  time_signature_changes : List TimeSig
  downbeats : List ℚ
  beats : List ℚ
  chroma : List (List ℤ)

/-! ## Timeline utilities (src/utils.py) -/

/-- `get_end_tick(midi) = midi.time_to_tick(midi.get_end_time())`. -/
def get_end_tick (m : MidiData) : ℤ := m.timeToTick m.endTime

/-- The grid spacing `ticks = midi.resolution / DEFAULT_POS_PER_QUARTER`. -/
def gridTicks (resolution : ℕ) : ℚ :=
  (resolution : ℚ) / (DEFAULT_POS_PER_QUARTER : ℚ)

/-- The length of `np.arange(0, max(midi.resolution, end_tick), ticks)`. -/
def gridCount (resolution : ℕ) (end_tick : ℤ) : ℕ :=
  (⌈max (resolution : ℚ) (end_tick : ℚ) / gridTicks resolution⌉).toNat

/-- `grids = np.arange(0, max(midi.resolution, end_tick), ticks)`. -/
def gridList (resolution : ℕ) (end_tick : ℤ) : List ℚ :=
  (List.range (gridCount resolution end_tick)).map (fun k : ℕ => (k : ℚ) * gridTicks resolution)

/-- The body of `quantize_items`' loop for one item: right-biased
`searchsorted`, step back one when possible, then shift `start` and `end`
by the same delta. (Python's `item.end += shift` would raise on a `None`
end; note items always carry an end, so the option is mapped over.) -/
def quantize_item (resolution : ℕ) (end_tick : ℤ) (it : Item) : Item :=
  let grids := gridList resolution end_tick
  let index0 := searchsortedRight grids (it.start : ℚ)
  let index := if 0 < index0 then index0 - 1 else index0
  let shift := pyRound (grids.getD index 0) - it.start
  { it with start := it.start + shift, stop := it.stop.map (fun e => e + shift) }

/-- `quantize_items(midi, note_items)`. -/
def quantize_items (m : MidiData) (note_items : List Item) : List Item :=
  note_items.map (quantize_item m.resolution (get_end_tick m))

/-- The pair scan of `get_time_signature`: first consecutive pair of
time-signature changes whose tick interval contains `start`. -/
def tsScan (m : MidiData) (start : ℤ) : List TimeSig → Option TimeSig
  | a :: b :: rest =>
      if m.timeToTick a.time ≤ start ∧ start < m.timeToTick b.time then some a
      else tsScan m start (b :: rest)
  | _ => none

/-- `get_time_signature(midi, start)`; falls back to the last change;
`none` models the `IndexError` on an empty change list. -/
def get_time_signature (m : MidiData) (start : ℤ) : Option TimeSig :=
  match tsScan m start m.time_signature_changes with
  | some ts => some ts
  | none => m.time_signature_changes.getLast?

/-- `int(DEFAULT_POS_PER_QUARTER * (4 * num / denom))`. A zero denominator
raises `ZeroDivisionError` in Python; in `ℚ` it yields 0, and every caller
treats a non-positive result as the fatal case, so the two error paths
coincide. -/
def positionsPerBarOf (ts : TimeSig) : ℤ :=
  pyTrunc ((DEFAULT_POS_PER_QUARTER : ℚ) *
    (4 * (ts.numerator : ℚ) / (ts.denominator : ℚ)))

/-- `get_positions_per_bar(midi, start)`. -/
def get_positions_per_bar (m : MidiData) (start : ℤ) : Option ℤ :=
  (get_time_signature m start).map positionsPerBarOf

/-- `tick_to_position(tick, resolution)`. -/
def tick_to_position (tick : ℤ) (resolution : ℕ) : ℤ :=
  pyRound ((tick : ℚ) / (resolution : ℚ) * (DEFAULT_POS_PER_QUARTER : ℚ))

/-- The decoder's reference frame (`last_tl_event`). -/
structure RefFrame where
  time : ℚ
  pos : ℤ × ℤ
  timeSig : TimeSig
  tempo : ℚ
deriving DecidableEq

/-- `get_time(reference, bar, pos)`: linear extrapolation from the frame. -/
def get_time (reference : RefFrame) (bar : ℤ) (pos : ℚ) : ℚ :=
  let num := reference.timeSig.numerator
  let denom := reference.timeSig.denominator
  let qpb : ℚ := 4 * (num : ℚ) / (denom : ℚ)
  let d_bars : ℚ := ((bar - reference.pos.1 : ℤ) : ℚ)
  let d_pos : ℚ := (pos - (reference.pos.2 : ℚ)) + d_bars * qpb * (DEFAULT_POS_PER_QUARTER : ℚ)
  let d_quarters : ℚ := d_pos / (DEFAULT_POS_PER_QUARTER : ℚ)
  reference.time + d_quarters / reference.tempo * 60

/-- `get_key`'s `type_priority` dict (a `KeyError` for any other name in
Python; pipeline items always carry one of the three names). -/
def type_priority (name : String) : ℤ :=
  if name = "Chord" then 0 else if name = "Tempo" then 1
  else if name = "Note" then 2 else 3

/-- `get_key`'s instrument sub-key: `-1 if instrument == 'drum' else
instrument`. A `None` instrument is mapped to a constant; Python never
compares it against an integer within one type-priority class. -/
def instrKey : Option InstrVal → ℤ
  | some .drum => -1
  | some (.prog p) => p
  | none => -2

/-- Pitch comparison within one type-priority class: integers with
integers (notes, tempos), chord label strings with strings. The
cross-type cases are a Python `TypeError` and never arise between items of
equal type priority. -/
def pitchLE : Option PitchVal → Option PitchVal → Bool
  | some (.num a), some (.num b) => decide (a ≤ b)
  | some (.str a), some (.str b) => a < b || a == b
  | _, _ => true

/-- `get_key` ordering: lexicographic on
`(start, type_priority, instrument key, pitch)`. -/
def itemLE (a b : Item) : Bool :=
  if a.start ≠ b.start then decide (a.start ≤ b.start)
  else if type_priority a.name ≠ type_priority b.name then
    decide (type_priority a.name ≤ type_priority b.name)
  else if instrKey a.instrument ≠ instrKey b.instrument then
    decide (instrKey a.instrument ≤ instrKey b.instrument)
  else pitchLE a.pitch b.pitch

/-- A bar group `[db1] + insiders + [db2]` as `(db1, insiders, db2)`. -/
abbrev BarGroup := ℤ × List Item × ℤ

/-- `group[1:-1]` contains no Note item (the trimming test). -/
def groupNoNote (g : BarGroup) : Bool :=
  decide (g.2.1.filter (fun it => it.name == "Note") = [])

/-- `group_items(midi, note_items, chord_items, tempo_items)`: merge, sort
stably by `get_key` (Python's stable sort = insertion sort with `≤`),
bucket by half-open downbeat ranges, and trim leading/trailing bars with no
Note items. -/
def group_items (m : MidiData) (note_items chord_items tempo_items : List Item) :
    List BarGroup :=
  let items := if chord_items ≠ [] then chord_items ++ tempo_items ++ note_items
               else tempo_items ++ note_items
  let sorted := List.insertionSort (fun a b => itemLE a b = true) items
  let downbeats := m.downbeats ++ [m.endTime]
  let groups := (downbeats.zip downbeats.tail).map (fun p =>
    let db1 := m.timeToTick p.1
    let db2 := m.timeToTick p.2
    ((db1, sorted.filter (fun it => decide (db1 ≤ it.start ∧ it.start < db2)), db2) : BarGroup))
  (groups.dropWhile groupNoNote).rdropWhile groupNoNote

/-! ## REMI+ encoder (src/midi2remi.py, RemiPlus.get_remi_events) -/

/-- The encoder state carried across bars. -/
structure EncState where
  currentChord : Option Item
  currentTempo : Option Item
deriving DecidableEq

/-- `np.argmin(np.abs(bins - x))` over an integer bin table. -/
def argminAbsZ (bins : List ℤ) (x : ℚ) : ℕ :=
  argminAbs (bins.map (fun z : ℤ => (z : ℚ))) x

/-- `np.linspace(a, b, n, endpoint=False)`. -/
def linspaceEF (a b : ℚ) (n : ℕ) : List ℚ :=
  (List.range n).map (fun k : ℕ => a + (b - a) * (k : ℚ) / (n : ℚ))

/-- Rendering of an item pitch as an event value. -/
def pitchEValue : PitchVal → EValue
  | .num v => .i v
  | .str s => .s s

/-- The event value of a chord item's pitch (a `None` pitch renders as the
string `"None"` in Python's f-string, without raising). -/
def chordItemValue (c : Item) : EValue :=
  match c.pitch with
  | some pv => pitchEValue pv
  | none => .s "None"

/-- The synthetic `Position_0 + Chord` pair emitted at the start of a bar
whenever a chord is carried over from a previous bar. -/
def synthChord (st : EncState) : List Event :=
  match st.currentChord with
  | some c => [⟨POSITION_KEY, some 0, .s "0"⟩,
      ⟨CHORD_KEY, some (c.start : ℚ), chordItemValue c⟩]
  | none => []

/-- The synthetic `Position_0 + Tempo` pair emitted at the start of a bar
whenever a tempo is carried over (the tempo is re-binned to the nearest
`DEFAULT_TEMPO_BINS` entry). `none` models the `TypeError` of binning a
non-numeric tempo pitch (carried tempo items always have one). -/
def synthTempo (st : EncState) : Option (List Event) :=
  match st.currentTempo with
  | some c =>
      match c.pitch with
      | some (.num tempov) =>
          some [⟨POSITION_KEY, some 0, .s "0"⟩,
            ⟨TEMPO_KEY, some (c.start : ℚ), .i (argminAbsZ DEFAULT_TEMPO_BINS (tempov : ℚ))⟩]
      | _ => none
  | none => some []

/-- The five-token group emitted for a Note item. `none` models the Python
crashes on items missing instrument/velocity/end (`TypeError` when binning
`None`) and on a non-integer pitch. -/
def noteEvents (resolution : ℕ) (progName : ℤ → String) (posEvent : Event)
    (it : Item) : Option (List Event) :=
  match it.instrument, it.pitch, it.velocity, it.stop with
  | some instr, some (.num pitchv), some vel, some stopv =>
    let name := match instr with
      | .drum => "drum"
      | .prog p => progName p
    let pitchVal : EValue := match instr with
      | .drum => .s ("drum_" ++ toString pitchv)
      | .prog _ => .i pitchv
    let velocity_index := argminAbsZ DEFAULT_VELOCITY_BINS (vel : ℚ)
    let duration := tick_to_position (stopv - it.start) resolution
    let duration_index := argminAbsZ (DEFAULT_DURATION_BINS.map (fun n : ℕ => (n : ℤ)))
      (duration : ℚ)
    some [posEvent,
      ⟨INSTRUMENT_KEY, some (it.start : ℚ), .s name⟩,
      ⟨PITCH_KEY, some (it.start : ℚ), pitchVal⟩,
      ⟨VELOCITY_KEY, some (it.start : ℚ), .i velocity_index⟩,
      ⟨DURATION_KEY, some (it.start : ℚ), .i duration_index⟩]
  | _, _, _, _ => none

/-- The interior-item loop body of `get_remi_events` for one item. -/
def processItem (resolution : ℕ) (progName : ℤ → String) (flags : List ℚ)
    (acc : List Event × EncState) (it : Item) : Option (List Event × EncState) :=
  let evts := acc.1
  let st := acc.2
  let index := argminAbs flags (it.start : ℚ)
  let posEvent : Event := ⟨POSITION_KEY, some (it.start : ℚ), .s (toString index)⟩
  if it.name = "Note" then
    (noteEvents resolution progName posEvent it).map (fun l => (evts ++ l, st))
  else if it.name = "Chord" then
    (if (match st.currentChord with
        | none => true
        | some c => decide (¬ it.pitch = c.pitch)) then
      some (evts ++ [posEvent, ⟨CHORD_KEY, some (it.start : ℚ), chordItemValue it⟩],
        { st with currentChord := some it })
    else some (evts, st))
  else if it.name = "Tempo" then
    (if (match st.currentTempo with
        | none => true
        | some c => decide (¬ it.pitch = c.pitch)) then
      match it.pitch with
      | some (.num tempov) =>
          some (evts ++ [posEvent,
              ⟨TEMPO_KEY, some (it.start : ℚ), .i (argminAbsZ DEFAULT_TEMPO_BINS (tempov : ℚ))⟩],
            { st with currentTempo := some it })
      | _ => none
    else some (evts, st))
  else some (evts, st)

/-- One bar of `get_remi_events`: positions-per-bar check (fatal when
`≤ 0`), Bar and TimeSignature header, synthetic carried-over chord/tempo
pairs, then the interior items against the bar's position grid. Returns the
bar's events and the updated carry state. -/
def barEvents (m : MidiData) (progName : ℤ → String) (n_downbeat : ℕ)
    (st : EncState) (g : BarGroup) : Option (List Event × EncState) :=
  match get_time_signature m g.1 with
  | none => none
  | some time_sig =>
    let positions_per_bar := positionsPerBarOf time_sig
    if positions_per_bar ≤ 0 then none
    else
      match synthTempo st with
      | none => none
      | some tempoEvts =>
        let headerEvts : List Event :=
          [⟨BAR_KEY, none, .s (toString n_downbeat)⟩,
           ⟨TIME_SIGNATURE_KEY, none,
             .s (toString time_sig.numerator ++ "/" ++ toString time_sig.denominator)⟩]
          ++ synthChord st ++ tempoEvts
        let quarters_per_bar : ℚ := 4 * (time_sig.numerator : ℚ) / (time_sig.denominator : ℚ)
        let ticks_per_bar : ℚ := (m.resolution : ℚ) * quarters_per_bar
        let flags := linspaceEF (g.1 : ℚ) ((g.1 : ℚ) + ticks_per_bar) positions_per_bar.toNat
        g.2.1.foldlM (processItem m.resolution progName flags) (headerEvts, st)

/-- `get_remi_events` up to token rendering: the bar loop with its running
1-based downbeat counter and carried chord/tempo state. -/
def get_remi_eventsList (m : MidiData) (progName : ℤ → String)
    (groups : List BarGroup) : Option (List Event) :=
  (groups.foldlM (fun (acc : List Event × EncState × ℕ) g => do
      let r ← barEvents m progName (acc.2.2 + 1) acc.2.1 g
      pure (acc.1 ++ r.1, r.2, acc.2.2 + 1))
    (([] : List Event), (⟨none, none⟩ : EncState), (0 : ℕ))).map
    (fun (acc : List Event × EncState × ℕ) => acc.1)

/-- `get_remi_events`: `[f'{e.name}_{e.value}' for e in events]`. -/
def get_remi_events (m : MidiData) (progName : ℤ → String)
    (groups : List BarGroup) : Option (List String) :=
  (get_remi_eventsList m progName groups).map (List.map renderToken)

/-! ## Chord extraction pipeline tail (src/chord_recognition.py) -/

/-- `extract(midi)`: candidates from the chroma/beat grid, DP selection,
dedupe, then map beat indices back to times (the final segment's end time
is clamped to the piece end). -/
def extract (m : MidiData) : Option (List (ℚ × ℚ × String)) := do
  let beats := m.beats
  let candidates ← get_candidates m.chroma beats.length [1, 2, 3, 4]
  let selected ← dynamic candidates beats.length
  let unique := dedupe selected
  unique.mapM (fun chord => do
    let start_time ← beats.get? chord.1
    let end_time ← if beats.length ≤ chord.2.1 then some m.endTime else beats.get? chord.2.1
    pure (start_time, end_time, chord.2.2))

/-- `extract_chords(midi)`: empty for pieces shorter than a quarter note;
otherwise chord Items from `extract`, with a leading `N:N` item when the
first chord does not start at tick 0. -/
def extract_chords (m : MidiData) : Option (List Item) :=
  let end_tick := get_end_tick m
  if end_tick < (m.resolution : ℤ) then some []
  else do
    let raw ← extract m
    let output : List Item := raw.map (fun chord =>
      { name := "Chord", start := m.timeToTick chord.1,
        stop := some (m.timeToTick chord.2.1), velocity := none,
        pitch := some (.str ((chord.2.2.splitOn "/").headD "")),
        instrument := none })
    match output with
    | [] =>
        some [{ name := "Chord", start := 0, stop := some end_tick,
                velocity := none, pitch := some (.str "N:N"), instrument := none }]
    | first :: _ =>
        if 0 < first.start then
          some (({ name := "Chord", start := 0, stop := some first.start,
                   velocity := none, pitch := some (.str "N:N"), instrument := none } : Item)
            :: output)
        else some output

/-- A concrete MIDI datum used by witnesses: resolution 480, an end time of
2 seconds, a 480-ticks-per-second converter, no structural data. -/
def exMidi480 : MidiData :=
  { resolution := 480
    endTime := 2
    timeToTick := fun q => ⌊480 * q⌋
    time_signature_changes := []
    downbeats := []
    beats := []
    chroma := [] }

/-- A concrete note item used by witnesses. -/
def exNote45 : Item :=
  { name := "Note", start := 45, stop := some 145, velocity := some 60,
    pitch := some (.num 60), instrument := some (.prog 0) }

/-- A token of the Chord category: its string starts with `"Chord_"`. -/
def isChordToken (t : String) : Bool := listIsPre ("Chord_".data) t.data

/-- A concrete MIDI datum with one 4/4 time signature (480 ticks per
quarter, 1920 per bar). -/
def exMidiTS : MidiData :=
  { resolution := 480
    endTime := 8
    timeToTick := fun q => ⌊480 * q⌋
    time_signature_changes := [⟨4, 4, 0⟩]
    downbeats := [0, 4]
    beats := []
    chroma := [] }

/-- A concrete chord item. -/
def exChordItem (s : ℤ) (p : String) : Item :=
  { name := "Chord", start := s, stop := some (s + 1920), velocity := none,
    pitch := some (.str p), instrument := none }

/-- Two bars; the second bar's group redeclares a chord at position 0
(its start tick is the bar's start tick). -/
def exGroupsC1 : List BarGroup :=
  [(0, [exChordItem 0 "C:maj"], 1920), (1920, [exChordItem 1920 "D:min"], 3840)]

/-- A piece shorter than one quarter note: end time 1/2 s at 480 ticks per
second gives end tick 240 < resolution 480. -/
def exMidiShort : MidiData :=
  { resolution := 480
    endTime := 1 / 2
    timeToTick := fun q => ⌊480 * q⌋
    time_signature_changes := [⟨4, 4, 0⟩]
    downbeats := []
    beats := []
    chroma := [] }

/-! ## REMI+ decoder (src/remi2midi.py)

`pretty_midi` output objects are modelled structurally: a note, an
instrument track (with its drum flag and program number), and the
PrettyMIDI result (initial tempo, time-signature change list, instrument
table in insertion order). `instrument_name_to_program` is an external
lookup owned by `pretty_midi`; it is a parameter `nameMap` here, `none`
modelling the `ValueError` it raises on an unknown instrument name. -/

deriving instance DecidableEq for Except

structure PNote where
  velocity : ℤ
  pitch : ℕ
  start : ℚ
  stop : ℚ
deriving DecidableEq

structure PInstr where
  isDrum : Bool
  program : ℕ
  notes : List PNote
deriving DecidableEq

structure PMidi where
  initialTempo : ℚ
  timeSigChanges : List TimeSig
  instruments : List (String × PInstr)
deriving DecidableEq

/-- The decoder scan state: bar counter, reference frame, lazily created
instrument table, accumulated time-signature changes, and the polyphony
table. Python's `polyphony_control` is a dict of dicts keyed
`bar → position → instrument`; since the decoder only ever reads and writes
full `(bar, position, instrument)` triples (and the per-bar reset on a Bar
token always targets a fresh bar number), a flat association list keyed by
the triple is observably equivalent. -/
structure DecState where
  bar : ℤ
  lastTl : RefFrame
  instruments : List (String × PInstr)
  timeSigChanges : List TimeSig
  poly : List ((ℤ × ℕ × String) × ℕ)
deriving DecidableEq

/-- Python dict overwrite on the polyphony table. -/
def polySet (l : List ((ℤ × ℕ × String) × ℕ)) (k : ℤ × ℕ × String) (v : ℕ) :
    List ((ℤ × ℕ × String) × ℕ) :=
  match l with
  | [] => [(k, v)]
  | (k', v') :: t => if k' = k then (k, v) :: t else (k', v') :: polySet t k v

/-- `instrument.notes.append(note)`, creating the instrument entry on first
use (`instruments[name] = instrument`; dict insertion order). -/
def addNote (l : List (String × PInstr)) (name : String) (newInst : PInstr)
    (note : PNote) : List (String × PInstr) :=
  match l.lookup name with
  | none => l ++ [(name, { newInst with notes := newInst.notes ++ [note] })]
  | some _ => l.map (fun p =>
      if p.1 = name then (p.1, { p.2 with notes := p.2.notes ++ [note] }) else p)

/-- `f"{const.BAR_KEY}_" in events[i]`. -/
def isBarTok (e : String) : Bool := strIn (BAR_KEY ++ "_") e

/-- The `[Position][Tempo]` two-token pattern guard. -/
def matchesTempoPair (e : String) (rest : List String) : Bool :=
  strIn (POSITION_KEY ++ "_") e &&
    (match rest with
     | t :: _ => strIn (TEMPO_KEY ++ "_") t
     | [] => false)

/-- The `[Position][Instrument][Pitch][Velocity][Duration]` five-token
pattern guard (`i + 4 < len(events)` and the four substring tests). -/
def matchesNoteGroup (e : String) (rest : List String) : Bool :=
  strIn (POSITION_KEY ++ "_") e &&
    (match rest with
     | a :: b :: c :: d :: _ =>
        strIn (INSTRUMENT_KEY ++ "_") a && strIn (PITCH_KEY ++ "_") b &&
        strIn (VELOCITY_KEY ++ "_") c && strIn (DURATION_KEY ++ "_") d
     | _ => false)

/-- The Bar-token branch: advance the bar counter; when the next token is a
TimeSignature token, parse `num/denom` (`ValueError` if the value does not
unpack to two integers) and re-anchor the reference frame when it differs
from the frame's current signature. (The `pretty_midi.TimeSignature`
constructor's positivity validation belongs to the external collaborator
and is not modelled; the well-formedness conditions below require positive
signatures.) -/
def barStep (st : DecState) (rest : List String) : Except String DecState :=
  let st1 : DecState := { st with bar := st.bar + 1 }
  match rest with
  | ts :: _ =>
    if strIn (TIME_SIGNATURE_KEY ++ "_") ts then
      match (lastField ts).splitOn "/" with
      | [a, b] =>
        match parseNat a, parseNat b with
        | some num, some denom =>
          if (num : ℤ) ≠ st1.lastTl.timeSig.numerator ∨
              (denom : ℤ) ≠ st1.lastTl.timeSig.denominator then
            let time := get_time st1.lastTl st1.bar 0
            let tsNew : TimeSig := ⟨(num : ℤ), (denom : ℤ), time⟩
            .ok { st1 with
              timeSigChanges := st1.timeSigChanges ++ [tsNew]
              lastTl := ⟨time, (st1.bar, 0), tsNew, st1.lastTl.tempo⟩ }
          else .ok st1
        | _, _ => .error "invalid literal for int"
      | _ => .error "time signature unpack"
    else .ok st1
  | [] => .ok st1

/-- The `[Position][Tempo]` branch: re-anchor the frame when the binned
tempo differs from the frame's tempo. -/
def tempoStep (st : DecState) (e t : String) : Except String DecState :=
  match parseNat (lastField e) with
  | none => .error "invalid literal for int"
  | some position =>
    match parseNat (lastField t) with
    | none => .error "invalid literal for int"
    | some tempo_idx =>
      match DEFAULT_TEMPO_BINS.get? tempo_idx with
      | none => .error "tempo index out of range"
      | some tempo =>
        if (tempo : ℚ) ≠ st.lastTl.tempo then
          let time := get_time st.lastTl st.bar (position : ℚ)
          .ok { st with lastTl := ⟨time, (st.bar, (position : ℤ)), st.lastTl.timeSig, (tempo : ℚ)⟩ }
        else .ok st

/-- Lazy instrument creation (`remi2midi` lines 90–98): reuse the entry,
or create a drum / looked-up-program instrument; unknown melodic names
raise `ValueError` inside `pretty_midi.instrument_name_to_program`. -/
def resolveInst (nameMap : String → Option ℕ) (l : List (String × PInstr))
    (name : String) : Except String PInstr :=
  match l.lookup name with
  | some inst => .ok inst
  | none =>
    if name = "drum" then .ok ⟨true, 0, []⟩
    else
      match nameMap name with
      | some prog => .ok ⟨false, prog, []⟩
      | none => .error "unknown instrument name"

/-- The five-token note branch, in the code's raising order: position
parse; polyphony lookup (a full counter silently drops the note); lazy
instrument creation (`ValueError` on an unknown melodic name); pitch,
velocity and duration parses with bin-table indexing (`IndexError` out of
range); then resolve times and admit. -/
def noteStep (nameMap : String → Option ℕ) (polyphony_limit : ℕ) (st : DecState)
    (e a b c d : String) : Except String DecState :=
  match parseNat (lastField e) with
  | none => .error "invalid literal for int"
  | some position =>
    let instrument_name := lastField a
    let key : ℤ × ℕ × String := (st.bar, position, instrument_name)
    let existing := st.poly.lookup key
    if existing.isSome ∧ polyphony_limit ≤ existing.getD 0 then
      .ok st
    else
      let count := existing.getD 0
      match resolveInst nameMap st.instruments instrument_name with
      | .error msg => .error msg
      | .ok inst =>
        match parseNat (lastField b) with
        | none => .error "invalid literal for int"
        | some pitch =>
          match parseNat (lastField c) with
          | none => .error "invalid literal for int"
          | some velocity_index =>
            match DEFAULT_VELOCITY_BINS.get? velocity_index with
            | none => .error "velocity index out of range"
            | some binVel =>
              let velocity := min 127 binVel
              match parseNat (lastField d) with
              | none => .error "invalid literal for int"
              | some duration_index =>
                match DEFAULT_DURATION_BINS.get? duration_index with
                | none => .error "duration index out of range"
                | some duration =>
                  let start := get_time st.lastTl st.bar (position : ℚ)
                  let stop := get_time st.lastTl st.bar ((position : ℚ) + (duration : ℚ))
                  let note : PNote := ⟨velocity, pitch, start, stop⟩
                  .ok { st with
                    instruments := addNote st.instruments instrument_name inst note
                    poly := polySet st.poly key (count + 1) }

/-- The decoder's left-to-right scan with fixed-window lookahead. The loop
index only ever advances by one (a matched group's trailing tokens are
re-examined as heads and match no pattern), so the scan recurses on the
tail in every branch. Halts at `<eos>`; any token matching no pattern head
is skipped. -/
def scanTokens (nameMap : String → Option ℕ) (polyphony_limit : ℕ) :
    List String → DecState → Except String DecState
  | [], st => .ok st
  | e :: rest, st =>
    if e = EOS_TOKEN then .ok st
    else if isBarTok e then
      match barStep st rest with
      | .error msg => .error msg
      | .ok st1 => scanTokens nameMap polyphony_limit rest st1
    else if matchesTempoPair e rest then
      match rest with
      | t :: _ =>
        match tempoStep st e t with
        | .error msg => .error msg
        | .ok st1 => scanTokens nameMap polyphony_limit rest st1
      | [] => scanTokens nameMap polyphony_limit rest st
    else if matchesNoteGroup e rest then
      match rest with
      | a :: b :: c :: d :: _ =>
        match noteStep nameMap polyphony_limit st e a b c d with
        | .error msg => .error msg
        | .ok st1 => scanTokens nameMap polyphony_limit rest st1
      | _ => scanTokens nameMap polyphony_limit rest st
    else scanTokens nameMap polyphony_limit rest st

/-- The initial-tempo resolution (`remi2midi` lines 11–13): the first
`Tempo_`-containing token anywhere in the stream overrides the `bpm`
argument (binned; raising on a malformed value). -/
def initBpm (bpm0 : ℚ) (events : List String) : Except String ℚ :=
  match events.filter (fun ev => strIn (TEMPO_KEY ++ "_") ev) with
  | [] => .ok bpm0
  | tc :: _ =>
    match parseNat (lastField tc) with
    | none => .error "invalid literal for int"
    | some idx =>
      match DEFAULT_TEMPO_BINS.get? idx with
      | none => .error "tempo index out of range"
      | some t => .ok (t : ℚ)

/-- The decoder's start state: bar −1, reference frame anchored at time 0
on the argument time signature, empty tables, and the argument signature
already recorded as the time-signature change at time 0. -/
def decInit (bpm : ℚ) (num0 denom0 : ℤ) : DecState :=
  { bar := -1
    lastTl := ⟨0, (0, 0), ⟨num0, denom0, 0⟩, bpm⟩
    instruments := []
    timeSigChanges := [⟨num0, denom0, 0⟩]
    poly := [] }

/-- `remi2midi(events, bpm, time_signature, polyphony_limit)`: resolve the
initial tempo, then scan. The unused local `n_notes` counter is dead code
and is not modelled. -/
def remi2midi (nameMap : String → Option ℕ) (bpm0 : ℚ) (num0 denom0 : ℤ)
    (polyphony_limit : ℕ) (events : List String) : Except String PMidi :=
  match initBpm bpm0 events with
  | .error msg => .error msg
  | .ok bpm =>
    match scanTokens nameMap polyphony_limit events (decInit bpm num0 denom0) with
    | .error msg => .error msg
    | .ok st => .ok ⟨bpm, st.timeSigChanges, st.instruments⟩

/-! ### Decoder scenario vocabulary

Used to state the polyphony-cap and skip properties over all streams of
the shapes the claims describe. -/

/-- A token that matches no pattern head — not `<eos>`, not a Bar token,
not a Position token. The scan skips such a head outright. -/
@[reducible] def passiveHead (t : String) : Prop :=
  t ≠ EOS_TOKEN ∧ isBarTok t = false ∧ strIn (POSITION_KEY ++ "_") t = false

/-- One well-formed five-token note group with pitch token `t`. -/
def noteGroup (posTok insTok velTok durTok t : String) : List String :=
  [posTok, insTok, t, velTok, durTok]

/-- Consecutive note groups sharing everything but the pitch token. -/
def groupsFor (posTok insTok velTok durTok : String) (pitToks : List String) :
    List String :=
  pitToks.bind (noteGroup posTok insTok velTok durTok)

/-- The note the decoder builds for pitch token `t` at position `pos`,
velocity bin value `bv` and duration `dur`, relative to frame `fr` and
bar `barv`. -/
def decNote (fr : RefFrame) (barv : ℤ) (pos : ℕ) (bv : ℤ) (dur : ℕ) (t : String) :
    PNote :=
  { velocity := min 127 bv
    pitch := (parseNat (lastField t)).getD 0
    start := get_time fr barv (pos : ℚ)
    stop := get_time fr barv ((pos : ℚ) + (dur : ℚ)) }

/-- A well-formed pitch token: skipped when re-scanned as a head, matches
the pitch slot of the note pattern, and its value parses. -/
@[reducible] def pitHyp (t : String) : Prop :=
  passiveHead t ∧ strIn (PITCH_KEY ++ "_") t = true ∧
    (parseNat (lastField t)).isSome = true

/-- Shape conditions on a note group's four fixed tokens: the Position
head matches exactly the note pattern (in particular its Instrument
successor is not a Tempo token, so the two-token tempo pattern cannot
fire first), the trailing tokens are skipped when re-scanned as heads,
the instrument is the drum track, and the numeric fields parse. -/
@[reducible] def groupShape (posTok insTok velTok durTok : String) (pos vi di : ℕ) : Prop :=
  posTok ≠ EOS_TOKEN ∧ isBarTok posTok = false ∧
  strIn (POSITION_KEY ++ "_") posTok = true ∧
  parseNat (lastField posTok) = some pos ∧
  passiveHead insTok ∧ strIn (INSTRUMENT_KEY ++ "_") insTok = true ∧
  strIn (TEMPO_KEY ++ "_") insTok = false ∧ lastField insTok = "drum" ∧
  passiveHead velTok ∧ strIn (VELOCITY_KEY ++ "_") velTok = true ∧
  parseNat (lastField velTok) = some vi ∧
  passiveHead durTok ∧ strIn (DURATION_KEY ++ "_") durTok = true ∧
  parseNat (lastField durTok) = some di

/-- The drum track the note branch resolves: the existing entry, or a
fresh drum instrument on first use. -/
def drumInstOf (l : List (String × PInstr)) : PInstr :=
  (l.lookup "drum").getD ⟨true, 0, []⟩

/-- The scan state mid-way through a run of same-triple note groups at
`(barv, pos, "drum")`: `ns` notes admitted so far, counter `ns.length`;
the instrument table and the polyphony table are empty until the first
admission. -/
def aState (barv : ℤ) (fr : RefFrame) (tsc : List TimeSig) (pos : ℕ)
    (ns : List PNote) : DecState :=
  { bar := barv
    lastTl := fr
    timeSigChanges := tsc
    instruments := if ns = [] then [] else [("drum", ⟨true, 0, ns⟩)]
    poly := if ns = [] then [] else [((barv, pos, "drum"), ns.length)] }

/-- The scan state during a second run of note groups at the distinct
triple `(barv, pos', "drum")`, after the first triple's counter saturated
at 16 with notes `ns`. -/
def bState (barv : ℤ) (fr : RefFrame) (tsc : List TimeSig) (pos pos' : ℕ)
    (ns ms : List PNote) : DecState :=
  { bar := barv
    lastTl := fr
    timeSigChanges := tsc
    instruments := [("drum", ⟨true, 0, ns ++ ms⟩)]
    poly := ((barv, pos, "drum"), 16) ::
      (if ms = [] then [] else [((barv, pos', "drum"), ms.length)]) }

/-- 20 pitch tokens for the polyphony scenario's saturated triple. -/
def exPitsA : List String :=
  ["Pitch_60", "Pitch_61", "Pitch_62", "Pitch_63", "Pitch_64", "Pitch_65",
    "Pitch_66", "Pitch_67", "Pitch_68", "Pitch_69", "Pitch_70", "Pitch_71",
    "Pitch_72", "Pitch_73", "Pitch_74", "Pitch_75", "Pitch_76", "Pitch_77",
    "Pitch_78", "Pitch_79"]

/-- 4 pitch tokens for the polyphony scenario's second triple. -/
def exPitsB : List String := ["Pitch_90", "Pitch_91", "Pitch_92", "Pitch_93"]

/-- Every recorded note's velocity is a clamped velocity bin. -/
def velClamped (l : List (String × PInstr)) : Prop :=
  ∀ p ∈ l, ∀ nt ∈ p.2.notes, ∃ b ∈ DEFAULT_VELOCITY_BINS, nt.velocity = min 127 b

/-! ## Theorems -/

/-! ### dedupe (claim C9) -/

lemma dedupeAux_head (s e : ℕ) (c : String) (l : List Seg) :
    ∃ e' t, dedupeAux s e c l = (s, e', c) :: t := by
  induction l generalizing s e c with
  | nil => exact ⟨e, [], rfl⟩
  | cons nx t ih =>
    by_cases h : c = nx.2.2
    · simpa [dedupeAux, h] using ih s nx.2.1 c
    · exact ⟨e, dedupeAux nx.1 nx.2.1 nx.2.2 t, by simp [dedupeAux, h]⟩

lemma dedupeAux_chain (s e : ℕ) (c : String) (l : List Seg) :
    List.Chain' (fun a b : Seg => a.2.2 ≠ b.2.2) (dedupeAux s e c l) := by
  induction l generalizing s e c with
  | nil => simp [dedupeAux]
  | cons nx t ih =>
    by_cases h : c = nx.2.2
    · simpa [dedupeAux, h] using ih s nx.2.1 c
    · obtain ⟨e', t', hht⟩ := dedupeAux_head nx.1 nx.2.1 nx.2.2 t
      have hch := ih nx.1 nx.2.1 nx.2.2
      rw [hht] at hch
      simp only [dedupeAux, h, if_false]
      rw [hht]
      exact List.Chain'.cons (by simpa using h) hch

lemma dedupeAux_of_chain (l : List Seg) :
    ∀ s e c, List.Chain' (fun a b : Seg => a.2.2 ≠ b.2.2) ((s, e, c) :: l) →
      dedupeAux s e c l = (s, e, c) :: l := by
  induction l with
  | nil => intro s e c _; rfl
  | cons nx t ih =>
    intro s e c hch
    have h1 : c ≠ nx.2.2 := by
      have := List.chain'_cons.mp hch
      simpa using this.1
    have h2 : List.Chain' (fun a b : Seg => a.2.2 ≠ b.2.2) (nx :: t) :=
      (List.chain'_cons.mp hch).2
    have h2' : List.Chain' (fun a b : Seg => a.2.2 ≠ b.2.2) ((nx.1, nx.2.1, nx.2.2) :: t) := by
      simpa using h2
    simp only [dedupeAux, h1, if_false]
    rw [ih nx.1 nx.2.1 nx.2.2 h2']

/-- C9: `dedupe` is idempotent: for every list of `(start, end, label)`
chord segments, `dedupe (dedupe chords) = dedupe chords`. -/
theorem dedupe_idempotent (chords : List Seg) :
    dedupe (dedupe chords) = dedupe chords := by
  cases chords with
  | nil => rfl
  | cons c0 rest =>
    have hd : dedupe (c0 :: rest) = dedupeAux c0.1 c0.2.1 c0.2.2 rest := rfl
    obtain ⟨e', t, hhead⟩ := dedupeAux_head c0.1 c0.2.1 c0.2.2 rest
    have hch := dedupeAux_chain c0.1 c0.2.1 c0.2.2 rest
    rw [hhead] at hch
    rw [hd, hhead]
    calc dedupe ((c0.1, e', c0.2.2) :: t)
        = dedupeAux c0.1 e' c0.2.2 t := rfl
      _ = (c0.1, e', c0.2.2) :: t := dedupeAux_of_chain t c0.1 e' c0.2.2 hch

/-! ### scoring (claim C6) -/

/-- Each step of the score fold loses at most 2. -/
lemma scoreStep_ge (q : String) (acc : ℤ) (n : ℕ) :
    acc - 2 ≤ (if (CHORD_OUTSIDERS_1 q).contains n then acc - 1
      else if (CHORD_OUTSIDERS_2 q).contains n then acc - 2
      else if (CHORD_INSIDERS q).contains n then acc + 10
      else acc) := by
  split_ifs <;> omega

lemma scoreFold_ge (q : String) (l : List ℕ) :
    ∀ acc : ℤ, acc - 2 * l.length ≤
      l.foldl (fun acc n =>
        if (CHORD_OUTSIDERS_1 q).contains n then acc - 1
        else if (CHORD_OUTSIDERS_2 q).contains n then acc - 2
        else if (CHORD_INSIDERS q).contains n then acc + 10
        else acc) acc := by
  induction l with
  | nil => intro acc; simp
  | cons n t ih =>
    intro acc
    have h1 := scoreStep_ge q acc n
    have h2 := ih ((if (CHORD_OUTSIDERS_1 q).contains n then acc - 1
      else if (CHORD_OUTSIDERS_2 q).contains n then acc - 2
      else if (CHORD_INSIDERS q).contains n then acc + 10
      else acc))
    simp only [List.foldl_cons, List.length_cons]
    calc acc - 2 * ((t.length : ℤ) + 1)
        = (acc - 2) - 2 * t.length := by ring
      _ ≤ _ := by
          refine le_trans ?_ h2
          omega

/-- Characterization of membership in the `sequencing` candidate dict. -/
lemma sequencing_mem (chroma : List ℕ) (r : ℕ) (seq : List ℕ)
    (hmem : (r, seq) ∈ sequencing chroma) :
    r < chroma.length ∧ chroma.getD r 0 ≠ 0 ∧ seq = whereEqOne (rollLeft chroma r) := by
  unfold sequencing at hmem
  obtain ⟨i, hi, hf⟩ := List.mem_filterMap.mp hmem
  rw [List.mem_range] at hi
  by_cases h : chroma.getD i 0 ≠ 0
  · rw [if_pos h] at hf
    have h1 := Option.some.inj hf
    have hir : i = r := congrArg Prod.fst h1
    have hseq : whereEqOne (rollLeft chroma i) = seq := congrArg Prod.snd h1
    subst hir
    exact ⟨hi, h, hseq.symm⟩
  · rw [if_neg h] at hf
    exact absurd hf (by simp)

lemma rollLeft_length (l : List ℕ) (r : ℕ) : (rollLeft l r).length = l.length := by
  simp only [rollLeft, List.length_append, List.length_drop, List.length_take]
  omega

/-- A member of `sequencing chroma` has an interval set no longer than the
chroma vector. -/
lemma sequencing_seq_length_le (chroma : List ℕ) (r : ℕ) (seq : List ℕ)
    (hmem : (r, seq) ∈ sequencing chroma) : seq.length ≤ chroma.length := by
  obtain ⟨-, -, hseq⟩ := sequencing_mem chroma r seq hmem
  subst hseq
  calc (whereEqOne (rollLeft chroma r)).length
      ≤ (List.range (rollLeft chroma r).length).length := List.length_filter_le _ _
    _ = (rollLeft chroma r).length := List.length_range _
    _ = chroma.length := rollLeft_length chroma r

/-- Both-or-neither of the thirds: the candidate is rejected. -/
lemma scoreQuality_none (seq : List ℕ) (hiff : 3 ∈ seq ↔ 4 ∈ seq) :
    scoreQuality seq = (-100, "None") := by
  unfold scoreQuality
  by_cases h3 : 3 ∈ seq
  · rw [if_neg (by tauto), if_pos ⟨h3, hiff.mp h3⟩]
  · rw [if_pos ⟨h3, fun h => h3 (hiff.mpr h)⟩]

/-- Exactly one third present: the assigned quality is one of the seven. -/
lemma scoreQuality_snd_mem (seq : List ℕ) (hxor : ¬(3 ∈ seq ↔ 4 ∈ seq)) :
    (scoreQuality seq).2 ∈ (["dim", "min7", "min", "aug", "dom7", "maj7", "maj"] : List String) := by
  unfold scoreQuality
  rw [if_neg (by tauto), if_neg (by tauto)]
  dsimp only
  split_ifs <;> simp

lemma scoreFold_ge' (q : String) (seq : List ℕ) :
    -2 * (seq.length : ℤ) ≤
      (seq.filter (fun n => !((CHORD_MAPS q).contains n))).foldl (fun acc n =>
        if (CHORD_OUTSIDERS_1 q).contains n then acc - 1
        else if (CHORD_OUTSIDERS_2 q).contains n then acc - 2
        else if (CHORD_INSIDERS q).contains n then acc + 10
        else acc) 0 := by
  have h1 := scoreFold_ge q (seq.filter (fun n => !((CHORD_MAPS q).contains n))) 0
  have h2 := List.length_filter_le (fun n => !((CHORD_MAPS q).contains n)) seq
  omega

/-- Exactly one third present: the score is at least `-2 · |seq|`. -/
lemma scoreQuality_fst_ge (seq : List ℕ) (hxor : ¬(3 ∈ seq ↔ 4 ∈ seq)) :
    -2 * (seq.length : ℤ) ≤ (scoreQuality seq).1 := by
  unfold scoreQuality
  rw [if_neg (by tauto), if_neg (by tauto)]
  dsimp only
  exact scoreFold_ge' _ seq

/-- C6: for every candidate interval set produced by `sequencing` on a
12-entry binarized chroma, if the set contains both of {3,4} or neither,
`scoring` assigns quality "None" and score -100; otherwise the quality is
one of dim/min7/min/aug/dom7/maj7/maj and the score is never -100. -/
theorem scoring_third_xor (chroma : List ℕ) (h12 : chroma.length = 12)
    (r : ℕ) (seq : List ℕ) (hmem : (r, seq) ∈ sequencing chroma) :
    ((3 ∈ seq ↔ 4 ∈ seq) →
      (r, (-100 : ℤ)) ∈ (scoring (sequencing chroma)).1 ∧
      (r, "None") ∈ (scoring (sequencing chroma)).2) ∧
    (¬(3 ∈ seq ↔ 4 ∈ seq) →
      ∃ sc q, (r, sc) ∈ (scoring (sequencing chroma)).1 ∧
        (r, q) ∈ (scoring (sequencing chroma)).2 ∧
        q ∈ (["dim", "min7", "min", "aug", "dom7", "maj7", "maj"] : List String) ∧
        sc ≠ -100) := by
  have hlen : seq.length ≤ 12 := h12 ▸ sequencing_seq_length_le chroma r seq hmem
  constructor
  · intro hiff
    have hsq := scoreQuality_none seq hiff
    refine ⟨?_, ?_⟩
    · exact List.mem_map.mpr ⟨(r, seq), hmem, by rw [hsq]⟩
    · exact List.mem_map.mpr ⟨(r, seq), hmem, by rw [hsq]⟩
  · intro hxor
    refine ⟨(scoreQuality seq).1, (scoreQuality seq).2,
      List.mem_map.mpr ⟨(r, seq), hmem, rfl⟩,
      List.mem_map.mpr ⟨(r, seq), hmem, rfl⟩,
      scoreQuality_snd_mem seq hxor, ?_⟩
    have hge := scoreQuality_fst_ge seq hxor
    omega

/-- Witness for C6 at a concrete C-major chroma. -/
theorem scoring_third_xor_witness :
    (([1, 0, 0, 0, 1, 0, 0, 1, 0, 0, 0, 0] : List ℕ).length = 12 ∧
      ((0 : ℕ), ([0, 4, 7] : List ℕ)) ∈ sequencing [1, 0, 0, 0, 1, 0, 0, 1, 0, 0, 0, 0]) ∧
    (¬((3 : ℕ) ∈ ([0, 4, 7] : List ℕ) ↔ (4 : ℕ) ∈ ([0, 4, 7] : List ℕ)) →
      ∃ sc q, ((0 : ℕ), sc) ∈ (scoring (sequencing [1, 0, 0, 0, 1, 0, 0, 1, 0, 0, 0, 0])).1 ∧
        ((0 : ℕ), q) ∈ (scoring (sequencing [1, 0, 0, 0, 1, 0, 0, 1, 0, 0, 0, 0])).2 ∧
        q ∈ (["dim", "min7", "min", "aug", "dom7", "maj7", "maj"] : List String) ∧
        sc ≠ -100) :=
  ⟨⟨by decide, by decide⟩,
    (scoring_third_xor [1, 0, 0, 0, 1, 0, 0, 1, 0, 0, 0, 0] (by decide) 0 [0, 4, 7]
      (by decide)).2⟩

/-! ### find_chord root selection (claim C7) -/

lemma foldl_add_eq_sum (l : List ℕ) : ∀ a : ℕ, l.foldl (· + ·) a = a + l.sum := by
  induction l with
  | nil => intro a; simp
  | cons x t ih =>
    intro a
    rw [List.foldl_cons, ih (a + x), List.sum_cons]
    omega

lemma map_fst_filterMap_ite {β : Type} (p : ℕ → Prop) [DecidablePred p]
    (g : ℕ → β) (l : List ℕ) :
    (l.filterMap (fun i => if p i then some (i, g i) else none)).map Prod.fst
      = l.filter (fun i => decide (p i)) := by
  induction l with
  | nil => rfl
  | cons x t ih =>
    by_cases h : p x
    · simp [List.filterMap_cons, h, List.filter_cons, ih]
    · simp [List.filterMap_cons, h, List.filter_cons, ih]

lemma filterMap_ite_id (p : ℕ → Prop) [DecidablePred p] (l : List ℕ) :
    l.filterMap (fun i => if p i then some i else none)
      = l.filter (fun i => decide (p i)) := by
  induction l with
  | nil => rfl
  | cons x t ih =>
    by_cases h : p x
    · simp [List.filterMap_cons, h, List.filter_cons, ih]
    · simp [List.filterMap_cons, h, List.filter_cons, ih]

lemma filterMap_guard_fst {α β : Type} (q : α × β → Prop) [DecidablePred q]
    (l : List (α × β)) :
    l.filterMap (fun p => if q p then some p.1 else none)
      = (l.filter (fun p => decide (q p))).map Prod.fst := by
  induction l with
  | nil => rfl
  | cons x t ih =>
    by_cases h : q x
    · simp [List.filterMap_cons, h, List.filter_cons, ih]
    · simp [List.filterMap_cons, h, List.filter_cons, ih]

lemma lookup_eq_of_mem_nodup {β : Type} (l : List (ℕ × β)) (k : ℕ) (v : β)
    (hnd : (l.map Prod.fst).Nodup) (hmem : (k, v) ∈ l) : l.lookup k = some v := by
  induction l with
  | nil => cases hmem
  | cons x t ih =>
    rcases List.mem_cons.mp hmem with h | h
    · subst h
      simp [List.lookup]
    · have hnd' : (x.1 :: t.map Prod.fst).Nodup := by simpa using hnd
      have hx1 : x.1 ∉ t.map Prod.fst := (List.nodup_cons.mp hnd').1
      have hk : k ∈ t.map Prod.fst := List.mem_map.mpr ⟨(k, v), h, rfl⟩
      have hne : (k == x.1) = false := by
        simp only [beq_eq_false_iff_ne, ne_eq]
        intro he
        exact hx1 (he ▸ hk)
      obtain ⟨x1, x2⟩ := x
      rw [List.lookup_cons, hne]
      exact ih (List.nodup_cons.mp hnd').2 h

lemma find?_sorted_min (l : List ℕ) (p : ℕ → Bool) (r0 : ℕ)
    (hs : l.Pairwise (· < ·)) (hr0 : r0 ∈ l) (hp : p r0 = true)
    (hlt : ∀ x ∈ l, x < r0 → p x = false) :
    l.find? p = some r0 := by
  induction l with
  | nil => cases hr0
  | cons x t ih =>
    rcases List.mem_cons.mp hr0 with h | h
    · subst h
      rw [List.find?_cons, hp]
    · have hx : x < r0 := (List.pairwise_cons.mp hs).1 r0 h
      have hpx : p x = false := hlt x (List.mem_cons_self x t) hx
      rw [List.find?_cons, hpx]
      exact ih (List.pairwise_cons.mp hs).2 h
        (fun y hy hylt => hlt y (List.mem_cons_of_mem x hy) hylt)

/-- The ascending list of active pitch classes of a binarized chroma. -/
def activeIdx (chromaB : List ℕ) : List ℕ :=
  (List.range chromaB.length).filter (fun i => decide (chromaB.getD i 0 ≠ 0))

lemma activeIdx_pairwise (b : List ℕ) : (activeIdx b).Pairwise (· < ·) :=
  List.Pairwise.sublist (List.filter_sublist _) (List.pairwise_lt_range _)

lemma activeIdx_lt (b : List ℕ) (x : ℕ) (hx : x ∈ activeIdx b) : x < b.length :=
  List.mem_range.mp (List.mem_filter.mp hx).1

lemma fcSortedNotes_eq (b : List ℕ) (hb : b.length ≤ 12) :
    fcSortedNotes b = activeIdx b := by
  unfold fcSortedNotes activeIdx
  have h1 : ∀ i ∈ List.range b.length,
      (if 0 < b.getD i 0 then some (i % 12) else none)
        = (if b.getD i 0 ≠ 0 then some i else none) := by
    intro i hi
    have hi12 : i < 12 := lt_of_lt_of_le (List.mem_range.mp hi) hb
    by_cases h : b.getD i 0 ≠ 0
    · rw [if_pos (Nat.pos_of_ne_zero h), if_pos h, Nat.mod_eq_of_lt hi12]
    · rw [if_neg (by omega), if_neg h]
  rw [List.filterMap_congr h1, filterMap_ite_id]

lemma sequencing_keys (b : List ℕ) :
    (sequencing b).map Prod.fst = activeIdx b := by
  unfold sequencing activeIdx
  exact map_fst_filterMap_ite _ _ _

lemma scoring_fst_keys (cands : List (ℕ × List ℕ)) :
    ((scoring cands).1).map Prod.fst = cands.map Prod.fst := by
  simp [scoring, List.map_map, Function.comp]

lemma scoring_snd_keys (cands : List (ℕ × List ℕ)) :
    ((scoring cands).2).map Prod.fst = cands.map Prod.fst := by
  simp [scoring, List.map_map, Function.comp]

/-- Root selection returns the smallest root index among tied maxima. -/
lemma fcRoot_min (scores : List (ℕ × ℤ)) (sorted_notes : List ℕ) (mx : ℤ)
    (hkeys : scores.map Prod.fst = sorted_notes)
    (hasc : sorted_notes.Pairwise (· < ·))
    (hmx : ∃ p ∈ scores, p.2 = mx) :
    ∃ r0, fcRoot scores sorted_notes mx = some r0 ∧ (r0, mx) ∈ scores ∧
      (∀ p ∈ scores, p.2 = mx → r0 ≤ p.1) := by
  have hascS : scores.Pairwise (fun a b => a.1 < b.1) :=
    List.pairwise_map.mp (hkeys ▸ hasc)
  have hrc : fcRootCands scores mx
      = (scores.filter (fun p => decide (p.2 = mx))).map Prod.fst :=
    filterMap_guard_fst _ _
  have hrcP : (fcRootCands scores mx).Pairwise (· < ·) := by
    rw [hrc]
    exact List.pairwise_map.mpr (hascS.filter _)
  have hne : fcRootCands scores mx ≠ [] := by
    obtain ⟨p, hp, hpmx⟩ := hmx
    rw [hrc]
    intro hcon
    have : p ∈ scores.filter (fun p => decide (p.2 = mx)) :=
      List.mem_filter.mpr ⟨hp, by simp [hpmx]⟩
    rw [List.map_eq_nil] at hcon
    rw [hcon] at this
    cases this
  obtain ⟨r0, rcTail, hrcEq⟩ := List.exists_cons_of_ne_nil hne
  have hr0mem : ∀ x ∈ fcRootCands scores mx, ∃ p ∈ scores, p.2 = mx ∧ p.1 = x := by
    intro x hx
    rw [hrc] at hx
    obtain ⟨p, hp, hpx⟩ := List.mem_map.mp hx
    exact ⟨p, (List.mem_filter.mp hp).1, by simpa using (List.mem_filter.mp hp).2, hpx⟩
  have hr0scores : (r0, mx) ∈ scores := by
    obtain ⟨p, hp, hpmx, hpx⟩ := hr0mem r0 (hrcEq ▸ List.mem_cons_self r0 rcTail)
    have : p = (r0, mx) := by
      obtain ⟨p1, p2⟩ := p
      simp only at hpmx hpx
      rw [hpmx, hpx]
    exact this ▸ hp
  have hr0min : ∀ x ∈ fcRootCands scores mx, r0 ≤ x := by
    intro x hx
    rw [hrcEq] at hx
    rcases List.mem_cons.mp hx with h | h
    · omega
    · have := (List.pairwise_cons.mp (hrcEq ▸ hrcP)).1 x h
      omega
  have hminP : ∀ p ∈ scores, p.2 = mx → r0 ≤ p.1 := by
    intro p hp hpmx
    have : p.1 ∈ fcRootCands scores mx := by
      rw [hrc]
      exact List.mem_map.mpr ⟨p, List.mem_filter.mpr ⟨hp, by simp [hpmx]⟩, rfl⟩
    exact hr0min p.1 this
  refine ⟨r0, ?_, hr0scores, hminP⟩
  unfold fcRoot
  by_cases hlen : (fcRootCands scores mx).length = 1
  · rw [if_pos hlen, hrcEq]
    rfl
  · rw [if_neg hlen]
    refine find?_sorted_min sorted_notes _ r0 hasc ?_ ?_ ?_
    · exact hkeys ▸ List.mem_map.mpr ⟨(r0, mx), hr0scores, rfl⟩
    · have : r0 ∈ fcRootCands scores mx := hrcEq ▸ List.mem_cons_self r0 rcTail
      simpa [List.elem_iff] using this
    · intro x hxl hxlt
      by_cases hxin : x ∈ fcRootCands scores mx
      · exact absurd (hr0min x hxin) (by omega)
      · simpa [List.elem_iff] using hxin

/-- C7: for every (12-row) chroma window with at least one active pitch
class, `find_chord` returns the root with the maximum candidate score,
breaking ties by the smallest pitch-class index (the same ascending
active-pitch-class scan whose first hit is the bass), together with that
root's quality and score. -/
theorem find_chord_root_max_min_tie (chroma : List (List ℤ)) (t : ℤ)
    (h12 : chroma.length = 12)
    (hact : ∃ row ∈ chroma, t < row.foldl (· + ·) 0) :
    ∃ rootIdx bassIdx quality score rootStr bassStr,
      find_chord chroma t = some (rootStr, quality, bassStr, score) ∧
      PITCH_CLASSES.get? rootIdx = some rootStr ∧
      PITCH_CLASSES.get? bassIdx = some bassStr ∧
      (rootIdx, score) ∈ (scoring (sequencing (binarize (rowSums chroma) t))).1 ∧
      (rootIdx, quality) ∈ (scoring (sequencing (binarize (rowSums chroma) t))).2 ∧
      (∀ p ∈ (scoring (sequencing (binarize (rowSums chroma) t))).1, p.2 ≤ score) ∧
      (∀ p ∈ (scoring (sequencing (binarize (rowSums chroma) t))).1,
        p.2 = score → rootIdx ≤ p.1) ∧
      (∀ p ∈ (scoring (sequencing (binarize (rowSums chroma) t))).1, bassIdx ≤ p.1) := by
  classical
  set b := binarize (rowSums chroma) t with hbdef
  have hblen : b.length = 12 := by
    simp [hbdef, binarize, rowSums, h12]
  -- the binarized vector has a 1 entry
  obtain ⟨row, hrow, hrowgt⟩ := hact
  have hone : (1 : ℕ) ∈ b := by
    rw [hbdef]
    unfold binarize
    refine List.mem_map.mpr ⟨row.foldl (· + ·) 0, ?_, if_pos hrowgt⟩
    exact List.mem_map.mpr ⟨row, hrow, rfl⟩
  have hsum : b.foldl (· + ·) 0 ≠ 0 := by
    rw [foldl_add_eq_sum, Nat.zero_add]
    have := List.single_le_sum (l := b) (fun x _ => Nat.zero_le x) 1 hone
    omega
  -- components
  have hsn : fcSortedNotes b = activeIdx b := fcSortedNotes_eq b (by omega)
  have hkeys : ((scoring (sequencing b)).1).map Prod.fst = activeIdx b := by
    rw [scoring_fst_keys, sequencing_keys]
  have hA : activeIdx b ≠ [] := by
    intro hcon
    obtain ⟨⟨j, hj⟩, hgetj⟩ := List.mem_iff_get.mp hone
    have hgd : b.getD j 0 = 1 := by
      rw [List.getD_eq_getElem?_getD, List.getElem?_eq_getElem hj]
      simpa [List.get_eq_getElem] using hgetj
    have hjmem : j ∈ activeIdx b :=
      List.mem_filter.mpr ⟨List.mem_range.mpr hj, by simp only [decide_eq_true_eq]; omega⟩
    rw [hcon] at hjmem
    cases hjmem
  obtain ⟨bassIdx, restA, hAeq⟩ := List.exists_cons_of_ne_nil hA
  -- the scores dict is nonempty, so max() succeeds
  have hscne : (scoring (sequencing b)).1 ≠ [] := by
    intro hcon
    rw [hcon] at hkeys
    rw [hAeq] at hkeys
    cases hkeys
  have hmaxne : ((scoring (sequencing b)).1.map (fun p => p.2)).max? ≠ none := by
    rw [Ne, List.max?_eq_none_iff, List.map_eq_nil]
    exact hscne
  obtain ⟨mx, hmx⟩ := Option.ne_none_iff_exists'.mp hmaxne
  have hmxmem : mx ∈ (scoring (sequencing b)).1.map (fun p => p.2) :=
    List.max?_mem (fun a b => max_choice a b) hmx
  have hmxub : ∀ v ∈ (scoring (sequencing b)).1.map (fun p => p.2), v ≤ mx :=
    fun v hv => ((List.max?_le_iff (fun _ _ _ => max_le_iff) hmx).mp (le_refl mx)) v hv
  obtain ⟨pmx, hpmx, hpmx2⟩ := List.mem_map.mp hmxmem
  -- root selection
  obtain ⟨r0, hr0, hr0mem, hr0min⟩ := fcRoot_min (scoring (sequencing b)).1 (activeIdx b) mx
    hkeys (activeIdx_pairwise b) ⟨pmx, hpmx, hpmx2⟩
  -- bounds for PITCH_CLASSES indexing
  have hr0lt : r0 < 12 := by
    have : r0 ∈ activeIdx b := hkeys ▸ List.mem_map.mpr ⟨(r0, mx), hr0mem, rfl⟩
    have := activeIdx_lt b r0 this
    omega
  have hblt : bassIdx < 12 := by
    have : bassIdx ∈ activeIdx b := hAeq ▸ List.mem_cons_self bassIdx restA
    have := activeIdx_lt b bassIdx this
    omega
  have hbassmin : ∀ x ∈ activeIdx b, bassIdx ≤ x := by
    intro x hx
    rw [hAeq] at hx
    rcases List.mem_cons.mp hx with h | h
    · omega
    · have := (List.pairwise_cons.mp (hAeq ▸ activeIdx_pairwise b)).1 x h
      omega
  -- quality lookup entry
  have hndk : ((scoring (sequencing b)).1.map Prod.fst).Nodup := by
    rw [hkeys]
    exact (activeIdx_pairwise b).nodup
  have hr0q : ∃ qv, ((r0, qv) ∈ (scoring (sequencing b)).2) := by
    have : r0 ∈ (scoring (sequencing b)).2.map Prod.fst := by
      rw [scoring_snd_keys, sequencing_keys, ← hkeys]
      exact List.mem_map.mpr ⟨(r0, mx), hr0mem, rfl⟩
    obtain ⟨p, hp, hp1⟩ := List.mem_map.mp this
    exact ⟨p.2, by obtain ⟨p1, p2⟩ := p; simp only at hp1; rwa [hp1] at hp⟩
  obtain ⟨qv, hqv⟩ := hr0q
  have hndk2 : ((scoring (sequencing b)).2.map Prod.fst).Nodup := by
    rw [scoring_snd_keys, sequencing_keys]
    exact (activeIdx_pairwise b).nodup
  -- assemble: evaluate find_chord along the established component equations
  refine ⟨r0, bassIdx, qv, mx,
    PITCH_CLASSES.get ⟨r0, by rw [show PITCH_CLASSES.length = 12 from rfl]; omega⟩,
    PITCH_CLASSES.get ⟨bassIdx, by rw [show PITCH_CLASSES.length = 12 from rfl]; omega⟩,
    ?_, List.get?_eq_get _, List.get?_eq_get _, hr0mem, hqv,
    fun p hp => hmxub p.2 (List.mem_map.mpr ⟨p, hp, rfl⟩), hr0min,
    fun p hp => hbassmin p.1 (hkeys ▸ List.mem_map.mpr ⟨p, hp, rfl⟩)⟩
  unfold find_chord
  rw [← hbdef]
  rw [if_neg hsum]
  rw [hsn, hAeq]
  dsimp only
  rw [hmx]
  dsimp only
  rw [← hAeq, hr0]
  dsimp only
  unfold fcResult
  rw [lookup_eq_of_mem_nodup _ _ _ hndk2 hqv,
    lookup_eq_of_mem_nodup _ _ _ hndk hr0mem,
    List.get?_eq_get (show r0 < PITCH_CLASSES.length by
      rw [show PITCH_CLASSES.length = 12 from rfl]; omega),
    List.get?_eq_get (show bassIdx < PITCH_CLASSES.length by
      rw [show PITCH_CLASSES.length = 12 from rfl]; omega)]

/-- Witness for C7 at a C-major one-beat chroma window. -/
theorem find_chord_root_max_min_tie_witness :
    (([[11], [0], [0], [0], [11], [0], [0], [11], [0], [0], [0], [0]] : List (List ℤ)).length = 12 ∧
      ∃ row ∈ ([[11], [0], [0], [0], [11], [0], [0], [11], [0], [0], [0], [0]] : List (List ℤ)),
        (10 : ℤ) < row.foldl (· + ·) 0) ∧
    (∃ rootIdx bassIdx quality score rootStr bassStr,
      find_chord [[11], [0], [0], [0], [11], [0], [0], [11], [0], [0], [0], [0]] 10
        = some (rootStr, quality, bassStr, score) ∧
      PITCH_CLASSES.get? rootIdx = some rootStr ∧
      PITCH_CLASSES.get? bassIdx = some bassStr ∧
      (rootIdx, score) ∈ (scoring (sequencing (binarize
        (rowSums [[11], [0], [0], [0], [11], [0], [0], [11], [0], [0], [0], [0]]) 10))).1 ∧
      (rootIdx, quality) ∈ (scoring (sequencing (binarize
        (rowSums [[11], [0], [0], [0], [11], [0], [0], [11], [0], [0], [0], [0]]) 10))).2 ∧
      (∀ p ∈ (scoring (sequencing (binarize
        (rowSums [[11], [0], [0], [0], [11], [0], [0], [11], [0], [0], [0], [0]]) 10))).1,
        p.2 ≤ score) ∧
      (∀ p ∈ (scoring (sequencing (binarize
        (rowSums [[11], [0], [0], [0], [11], [0], [0], [11], [0], [0], [0], [0]]) 10))).1,
        p.2 = score → rootIdx ≤ p.1) ∧
      (∀ p ∈ (scoring (sequencing (binarize
        (rowSums [[11], [0], [0], [0], [11], [0], [0], [11], [0], [0], [0], [0]]) 10))).1,
        bassIdx ≤ p.1)) :=
  ⟨⟨by decide, ⟨[11], by decide, by decide⟩⟩,
    find_chord_root_max_min_tie [[11], [0], [0], [0], [11], [0], [0], [11], [0], [0], [0], [0]]
      10 (by decide) ⟨[11], by decide, by decide⟩⟩

/-! ### dynamic programming segmentation (claim C2) -/

/-- The invariant maintained by the DP fill: every stored predecessor
pointer is keyed by its own end tick, strictly decreases, and points to a
reachable (finite-score) start; and every reachable positive tick has a
pointer. -/
def DPInv (st : DPState) : Prop :=
  (∀ t seg, st.chords t = some seg → seg.2.1 = t ∧ seg.1 < t ∧ st.scores seg.1 ≠ ⊥) ∧
  (∀ t, 1 ≤ t → st.scores t ≠ ⊥ → st.chords t ≠ none)

lemma dpInit_inv : DPInv dpInit := by
  constructor
  · intro t seg h
    simp [dpInit] at h
  · intro t ht h
    simp only [dpInit] at h
    rw [if_neg (by omega)] at h
    exact absurd rfl h

lemma dpStep_scores_ne_bot (s : ℕ) (st : DPState) (p : ℕ × Cand) (x : ℕ)
    (h : st.scores x ≠ ⊥) : (dpStep s st p).scores x ≠ ⊥ := by
  unfold dpStep
  dsimp only
  split_ifs with hlt
  · simp only [Function.update_apply]
    split_ifs with hx
    · intro hcon
      rw [WithBot.add_eq_bot] at hcon
      rcases hcon with hb | hb
      · rw [hb] at hlt
        rw [WithBot.bot_add] at hlt
        exact not_lt_bot hlt
      · exact WithBot.coe_ne_bot hb
    · exact h
  · exact h

lemma dpStep_target (s : ℕ) (st : DPState) (e : ℕ) (c : Cand)
    (hne : st.scores s ≠ ⊥) : (dpStep s st (e, c)).scores e ≠ ⊥ := by
  unfold dpStep
  have hsum : st.scores s + ((c.2.2.2 : ℤ) : WithBot ℤ) ≠ ⊥ := by
    rw [Ne, WithBot.add_eq_bot]
    push_neg
    exact ⟨hne, WithBot.coe_ne_bot⟩
  dsimp only
  split_ifs with hlt
  · simp only [Function.update_apply, if_pos rfl]
    exact hsum
  · intro hcon
    rw [not_lt] at hlt
    rw [hcon] at hlt
    exact hsum (le_bot_iff.mp hlt)

lemma dpStep_inv (s : ℕ) (st : DPState) (p : ℕ × Cand)
    (hp : s < p.1) (hinv : DPInv st) : DPInv (dpStep s st p) := by
  obtain ⟨h1, h2⟩ := hinv
  by_cases hlt : st.scores p.1 < st.scores s + ((p.2.2.2.2 : ℤ) : WithBot ℤ)
  · have hsne : st.scores s ≠ ⊥ := by
      intro hb
      rw [hb, WithBot.bot_add] at hlt
      exact not_lt_bot hlt
    have hstep : dpStep s st p =
        { scores := Function.update st.scores p.1 (st.scores s + ((p.2.2.2.2 : ℤ) : WithBot ℤ))
          chords := Function.update st.chords p.1 (some (s, p.1, chordLabel p.2)) } := by
      unfold dpStep
      rw [if_pos hlt]
    rw [hstep]
    constructor
    · intro t seg hseg
      simp only [Function.update_apply] at hseg ⊢
      by_cases ht : t = p.1
      · rw [if_pos ht] at hseg
        have hsegEq : seg = (s, p.1, chordLabel p.2) := (Option.some.inj hseg).symm
        subst hsegEq
        refine ⟨ht.symm, by omega, ?_⟩
        rw [if_neg (by omega)]
        exact hsne
      · rw [if_neg ht] at hseg
        obtain ⟨he, hs, hne⟩ := h1 t seg hseg
        refine ⟨he, hs, ?_⟩
        split_ifs with hx
        · rw [Ne, WithBot.add_eq_bot]
          push_neg
          exact ⟨hsne, WithBot.coe_ne_bot⟩
        · exact hne
    · intro t ht hsc
      simp only [Function.update_apply] at hsc ⊢
      by_cases htp : t = p.1
      · rw [if_pos htp]
        exact Option.some_ne_none _
      · rw [if_neg htp] at hsc ⊢
        exact h2 t ht hsc
  · have hstep : dpStep s st p = st := by
      unfold dpStep
      rw [if_neg hlt]
    rw [hstep]
    exact ⟨h1, h2⟩

lemma foldl_dpStep_scores_ne_bot (s : ℕ) (l : List (ℕ × Cand)) :
    ∀ (st : DPState) (x : ℕ), st.scores x ≠ ⊥ → (l.foldl (dpStep s) st).scores x ≠ ⊥ := by
  induction l with
  | nil => intro st x h; exact h
  | cons p t ih =>
    intro st x h
    exact ih (dpStep s st p) x (dpStep_scores_ne_bot s st p x h)

lemma foldl_dpStep_inv (s : ℕ) (l : List (ℕ × Cand)) :
    ∀ (st : DPState), (∀ p ∈ l, s < p.1) → DPInv st → DPInv (l.foldl (dpStep s) st) := by
  induction l with
  | nil => intro st _ h; exact h
  | cons p t ih =>
    intro st hl h
    exact ih (dpStep s st p) (fun q hq => hl q (List.mem_cons_of_mem p hq))
      (dpStep_inv s st p (hl p (List.mem_cons_self p t)) h)

lemma foldl_dpStep_target (s : ℕ) (l : List (ℕ × Cand)) (st : DPState)
    (e : ℕ) (c : Cand) (hmem : (e, c) ∈ l) (hne : st.scores s ≠ ⊥) :
    (l.foldl (dpStep s) st).scores e ≠ ⊥ := by
  obtain ⟨l1, l2, hl⟩ := List.append_of_mem hmem
  subst hl
  rw [List.foldl_append, List.foldl_cons]
  refine foldl_dpStep_scores_ne_bot s l2 _ e ?_
  refine dpStep_target s _ e c ?_
  exact foldl_dpStep_scores_ne_bot s l1 st s hne

/-- After processing starts `0..k-1`, the invariant holds and every tick up
to `k` is reachable. -/
lemma dpFill_partial (table : CandTable) (M : ℕ)
    (hEnds : ∀ s, s < M → ∀ p ∈ candsAt table s, s < p.1 ∧ p.1 ≤ M)
    (hCover : ∀ s, s < M → ∃ p ∈ candsAt table s, p.1 = s + 1) :
    ∀ k, k ≤ M →
      DPInv ((List.range k).foldl (fun st s => (candsAt table s).foldl (dpStep s) st) dpInit) ∧
      (∀ t, t ≤ k →
        ((List.range k).foldl (fun st s => (candsAt table s).foldl (dpStep s) st) dpInit).scores t ≠ ⊥) := by
  intro k
  induction k with
  | zero =>
    intro _
    refine ⟨dpInit_inv, ?_⟩
    intro t ht
    have : t = 0 := by omega
    subst this
    simp [dpInit]
  | succ k ih =>
    intro hk
    obtain ⟨hinv, hreach⟩ := ih (by omega)
    rw [List.range_succ, List.foldl_append, List.foldl_cons, List.foldl_nil]
    set stk := (List.range k).foldl (fun st s => (candsAt table s).foldl (dpStep s) st) dpInit with hstk
    constructor
    · exact foldl_dpStep_inv k (candsAt table k) stk
        (fun p hp => (hEnds k (by omega) p hp).1) hinv
    · intro t ht
      by_cases htk : t ≤ k
      · exact foldl_dpStep_scores_ne_bot k (candsAt table k) stk t (hreach t htk)
      · have htEq : t = k + 1 := by omega
        subst htEq
        obtain ⟨p, hp, hp1⟩ := hCover k (by omega)
        obtain ⟨e, c⟩ := p
        simp only at hp1
        subst hp1
        exact foldl_dpStep_target k (candsAt table k) stk _ c hp (hreach k (by omega))

lemma backtrack_ok (st : DPState) (M : ℕ)
    (hinv : DPInv st) (hall : ∀ t, t ≤ M → st.scores t ≠ ⊥) :
    ∀ fuel t, t < fuel → t ≤ M →
      ∃ segs, backtrackAux st.chords fuel t = some segs ∧ DescChain segs t := by
  intro fuel
  induction fuel with
  | zero => intro t ht; omega
  | succ fuel ih =>
    intro t ht htM
    by_cases ht0 : 0 < t
    · have hsc : st.scores t ≠ ⊥ := hall t htM
      have hch : st.chords t ≠ none := hinv.2 t (by omega) hsc
      obtain ⟨seg, hseg⟩ := Option.ne_none_iff_exists'.mp hch
      obtain ⟨he, hlt, hne⟩ := hinv.1 t seg hseg
      obtain ⟨segs', hbt, hdc⟩ := ih seg.1 (by omega) (by omega)
      refine ⟨seg :: segs', ?_, he, by omega, hdc⟩
      unfold backtrackAux
      rw [if_pos ht0, hseg]
      dsimp only
      rw [hbt]
      rfl
    · have ht0' : t = 0 := by omega
      subst ht0'
      exact ⟨[], by unfold backtrackAux; rw [if_neg (by omega)], rfl⟩

lemma descChain_mem_lt (segs : List Seg) (t : ℕ) (h : DescChain segs t) :
    ∀ seg ∈ segs, seg.1 < seg.2.1 := by
  induction segs generalizing t with
  | nil => intro seg hs; cases hs
  | cons x rest ih =>
    intro seg hs
    rcases List.mem_cons.mp hs with hx | hx
    · subst hx; exact h.2.1
    · exact ih x.1 h.2.2 seg hx

lemma descChain_mem_le (segs : List Seg) (t : ℕ) (h : DescChain segs t) :
    ∀ seg ∈ segs, seg.2.1 ≤ t := by
  induction segs generalizing t with
  | nil => intro seg hs; cases hs
  | cons x rest ih =>
    intro seg hs
    have h1 := h.1
    have h2 := h.2.1
    rcases List.mem_cons.mp hs with hx | hx
    · subst hx; omega
    · have := ih x.1 h.2.2 seg hx
      omega

lemma descChain_chain (segs : List Seg) (t : ℕ) (h : DescChain segs t) :
    List.Chain' (fun a b : Seg => a.1 = b.2.1) segs := by
  induction segs generalizing t with
  | nil => exact List.chain'_nil
  | cons x rest ih =>
    cases rest with
    | nil => simp
    | cons y rest2 =>
      refine List.chain'_cons.mpr ⟨?_, ih x.1 h.2.2⟩
      exact (h.2.2.1).symm

lemma descChain_pairwise (segs : List Seg) (t : ℕ) (h : DescChain segs t) :
    segs.Pairwise (fun a b : Seg => b.2.1 ≤ a.1) := by
  induction segs generalizing t with
  | nil => exact List.Pairwise.nil
  | cons x rest ih =>
    refine List.pairwise_cons.mpr ⟨?_, ih x.1 h.2.2⟩
    intro b hb
    exact descChain_mem_le rest x.1 h.2.2 b hb

lemma descChain_getLast (segs : List Seg) (t : ℕ) (h : DescChain segs t)
    (hne : segs ≠ []) : ∃ last1, segs.getLast? = some last1 ∧ last1.1 = 0 := by
  induction segs generalizing t with
  | nil => exact absurd rfl hne
  | cons x rest ih =>
    cases rest with
    | nil =>
      refine ⟨x, rfl, ?_⟩
      have : DescChain [] x.1 := h.2.2
      simpa [DescChain] using this
    | cons y rest2 =>
      obtain ⟨l1, hl1, hl10⟩ := ih x.1 h.2.2 (by simp)
      exact ⟨l1, by rwa [List.getLast?_cons_cons], hl10⟩

/-- C2: for `max_tick > 0` and a candidate table shaped like the output of
`get_candidates` (all ends in `(start, max_tick]`) that contains the
length-1 candidate at every start, `dynamic` returns a list of segments
covering `[0, max_tick)` exactly once: the first starts at 0, the last ends
at `max_tick`, each segment's start equals the previous segment's end, and
no two segments overlap. -/
theorem dynamic_covers (table : CandTable) (M : ℕ) (hM : 0 < M)
    (hEnds : ∀ s, s < M → ∀ p ∈ candsAt table s, s < p.1 ∧ p.1 ≤ M)
    (hCover : ∀ s, s < M → ∃ p ∈ candsAt table s, p.1 = s + 1) :
    ∃ segs first last1,
      dynamic table M = some segs ∧
      segs.head? = some first ∧ first.1 = 0 ∧
      segs.getLast? = some last1 ∧ last1.2.1 = M ∧
      (∀ seg ∈ segs, seg.1 < seg.2.1) ∧
      List.Chain' (fun a b : Seg => a.2.1 = b.1) segs ∧
      segs.Pairwise (fun a b : Seg => a.2.1 ≤ b.1) := by
  obtain ⟨hinv, hall⟩ := dpFill_partial table M hEnds hCover M (le_refl M)
  have hfill : dpFill table M
      = (List.range M).foldl (fun st s => (candsAt table s).foldl (dpStep s) st) dpInit := rfl
  obtain ⟨segs0, hbt, hdc⟩ := backtrack_ok (dpFill table M) M (hfill ▸ hinv)
    (fun t ht => hfill ▸ hall t ht) (M + 1) M (by omega) (le_refl M)
  have hne : segs0 ≠ [] := by
    intro hcon
    rw [hcon] at hdc
    simp only [DescChain] at hdc
    omega
  obtain ⟨x0, rest0, hx0⟩ := List.exists_cons_of_ne_nil hne
  obtain ⟨l1, hl1, hl10⟩ := descChain_getLast segs0 M hdc hne
  refine ⟨segs0.reverse, l1, x0, ?_, ?_, hl10, ?_, ?_, ?_, ?_, ?_⟩
  · unfold dynamic
    rw [hbt]
    rfl
  · rw [List.head?_reverse]
    exact hl1
  · rw [List.getLast?_reverse]
    rw [hx0]
    rfl
  · rw [hx0] at hdc
    exact hdc.1
  · intro seg hs
    exact descChain_mem_lt segs0 M hdc seg (List.mem_reverse.mp hs)
  · rw [List.chain'_reverse]
    exact List.Chain'.imp (fun a b hab => hab.symm) (descChain_chain segs0 M hdc)
  · rw [List.pairwise_reverse]
    exact descChain_pairwise segs0 M hdc

/-- Witness for C2 at a concrete 3-tick candidate table. -/
theorem dynamic_covers_witness :
    ((0 : ℕ) < 3 ∧
      (∀ s, s < 3 → ∀ p ∈ candsAt [(0, [(1, ("C", "maj", "C", (5 : ℤ)))]),
          (1, [(2, ("D", "min", "D", 3)), (3, ("E", "maj", "E", 2))]),
          (2, [(3, ("F", "maj", "F", 1))])] s, s < p.1 ∧ p.1 ≤ 3) ∧
      (∀ s, s < 3 → ∃ p ∈ candsAt [(0, [(1, ("C", "maj", "C", (5 : ℤ)))]),
          (1, [(2, ("D", "min", "D", 3)), (3, ("E", "maj", "E", 2))]),
          (2, [(3, ("F", "maj", "F", 1))])] s, p.1 = s + 1)) ∧
    (∃ segs first last1,
      dynamic [(0, [(1, ("C", "maj", "C", (5 : ℤ)))]),
          (1, [(2, ("D", "min", "D", 3)), (3, ("E", "maj", "E", 2))]),
          (2, [(3, ("F", "maj", "F", 1))])] 3 = some segs ∧
      segs.head? = some first ∧ first.1 = 0 ∧
      segs.getLast? = some last1 ∧ last1.2.1 = 3 ∧
      (∀ seg ∈ segs, seg.1 < seg.2.1) ∧
      List.Chain' (fun a b : Seg => a.2.1 = b.1) segs ∧
      segs.Pairwise (fun a b : Seg => a.2.1 ≤ b.1)) :=
  ⟨⟨by decide, by decide, by decide⟩,
    dynamic_covers _ 3 (by decide) (by decide) (by decide)⟩

/-! ### quantize_items (claim C5) -/

/-- A downward-closed predicate filters `range n` to an initial segment. -/
lemma filter_range_downward (p : ℕ → Bool)
    (hdc : ∀ j k, j ≤ k → p k = true → p j = true) (n : ℕ) :
    (List.range n).filter p = List.range ((List.range n).countP p) := by
  induction n with
  | zero => rfl
  | succ n ih =>
    rw [List.range_succ, List.filter_append, List.countP_append]
    by_cases hp : p n = true
    · have hall : ∀ x ∈ List.range n, p x = true := by
        intro x hx
        exact hdc x n (le_of_lt (List.mem_range.mp hx)) hp
      rw [List.filter_eq_self.mpr hall, List.countP_eq_length.mpr hall]
      simp [hp, List.range_succ]
    · have hp' : p n = false := by
        cases h : p n
        · rfl
        · exact absurd h hp
      simp only [List.filter_cons, List.countP_cons, hp']
      simpa using ih

lemma getD_map_range (f : ℕ → ℚ) (n j : ℕ) (hj : j < n) :
    ((List.range n).map f).getD j 0 = f j := by
  rw [List.getD_eq_getElem?_getD,
    List.getElem?_eq_getElem (by simpa using hj)]
  simp

/-- The `searchsorted`-then-step-back index of `quantize_items` is the
largest grid index whose grid point is at or before `x`. -/
lemma grid_index_max (resolution : ℕ) (end_tick : ℤ) (x : ℚ)
    (hres : 0 < resolution) (hx : 0 ≤ x) :
    0 < searchsortedRight (gridList resolution end_tick) x ∧
    searchsortedRight (gridList resolution end_tick) x ≤ gridCount resolution end_tick ∧
    ((searchsortedRight (gridList resolution end_tick) x - 1 : ℕ) : ℚ) *
        gridTicks resolution ≤ x ∧
    (∀ k, k < gridCount resolution end_tick →
      (k : ℚ) * gridTicks resolution ≤ x → k ≤ searchsortedRight (gridList resolution end_tick) x - 1) := by
  have hticks : 0 < gridTicks resolution := by
    unfold gridTicks DEFAULT_POS_PER_QUARTER
    positivity
  have hn : 0 < gridCount resolution end_tick := by
    unfold gridCount
    have h1 : (1 : ℚ) ≤ max (resolution : ℚ) (end_tick : ℚ) / gridTicks resolution := by
      rw [le_div_iff hticks, one_mul]
      calc gridTicks resolution = (resolution : ℚ) / 12 := rfl
        _ ≤ (resolution : ℚ) := by
            rw [div_le_iff (by norm_num)]
            have : (1 : ℚ) ≤ (resolution : ℚ) := by exact_mod_cast hres
            nlinarith
        _ ≤ max (resolution : ℚ) (end_tick : ℚ) := le_max_left _ _
    have h2 : (1 : ℤ) ≤ ⌈max (resolution : ℚ) (end_tick : ℚ) / gridTicks resolution⌉ := by
      calc (1 : ℤ) = ⌈(1 : ℚ)⌉ := by norm_num
        _ ≤ _ := Int.ceil_le_ceil h1
    omega
  set n := gridCount resolution end_tick with hndef
  set p : ℕ → Bool := fun k => decide ((k : ℚ) * gridTicks resolution ≤ x) with hpdef
  have hdc : ∀ j k, j ≤ k → p k = true → p j = true := by
    intro j k hjk hk
    rw [hpdef, decide_eq_true_eq] at hk ⊢
    calc (j : ℚ) * gridTicks resolution ≤ (k : ℚ) * gridTicks resolution := by
          apply mul_le_mul_of_nonneg_right _ (le_of_lt hticks)
          exact_mod_cast hjk
      _ ≤ x := hk
  have hcount : searchsortedRight (gridList resolution end_tick) x = (List.range n).countP p := by
    unfold searchsortedRight gridList
    rw [List.countP_map]
    rfl
  have hfilter := filter_range_downward p hdc n
  set c := (List.range n).countP p with hcdef
  have hcpos : 0 < c := by
    have h0 : (0 : ℕ) ∈ (List.range n).filter p := by
      refine List.mem_filter.mpr ⟨List.mem_range.mpr hn, ?_⟩
      rw [hpdef, decide_eq_true_eq]
      simpa using hx
    rw [hfilter] at h0
    exact List.mem_range.mp h0
  have hcle : c ≤ n := by
    rw [hcdef]
    calc (List.range n).countP p ≤ (List.range n).length := List.countP_le_length p
      _ = n := List.length_range n
  have hcm1 : ((c - 1 : ℕ) : ℚ) * gridTicks resolution ≤ x := by
    have hmem : (c - 1 : ℕ) ∈ List.range c := List.mem_range.mpr (by omega)
    rw [← hfilter] at hmem
    have := (List.mem_filter.mp hmem).2
    rw [hpdef, decide_eq_true_eq] at this
    exact this
  have hmax : ∀ k, k < n → (k : ℚ) * gridTicks resolution ≤ x → k ≤ c - 1 := by
    intro k hk hkx
    have hmem : k ∈ (List.range n).filter p :=
      List.mem_filter.mpr ⟨List.mem_range.mpr hk, by rw [hpdef, decide_eq_true_eq]; exact hkx⟩
    rw [hfilter] at hmem
    have := List.mem_range.mp hmem
    omega
  rw [hcount]
  exact ⟨hcpos, hcle, hcm1, hmax⟩

/-- C5: `quantize_items` shifts each note's start and end by the same delta
(end − start unchanged), and the delta snaps the start onto the rounding of
the largest grid point at or before the original start, on the grid with
spacing `resolution / POS_PER_QUARTER` starting at 0. -/
theorem quantize_items_snap (m : MidiData) (items : List Item) (i : ℕ)
    (hi : i < items.length) (hres : 0 < m.resolution)
    (hstart : 0 ≤ (items.get ⟨i, hi⟩).start) :
    ∃ it', (quantize_items m items).get? i = some it' ∧
      (∀ e, (items.get ⟨i, hi⟩).stop = some e →
        ∃ e', it'.stop = some e' ∧ e' - it'.start = e - (items.get ⟨i, hi⟩).start) ∧
      ∃ j, j < gridCount m.resolution (get_end_tick m) ∧
        it'.start = pyRound ((j : ℚ) * gridTicks m.resolution) ∧
        (j : ℚ) * gridTicks m.resolution ≤ ((items.get ⟨i, hi⟩).start : ℚ) ∧
        (∀ k, k < gridCount m.resolution (get_end_tick m) →
          (k : ℚ) * gridTicks m.resolution ≤ ((items.get ⟨i, hi⟩).start : ℚ) → k ≤ j) := by
  set it := items.get ⟨i, hi⟩ with hit
  have hq : (quantize_items m items).get? i
      = some (quantize_item m.resolution (get_end_tick m) it) := by
    unfold quantize_items
    rw [List.get?_eq_get (by simpa using hi)]
    congr 1
    rw [List.get_map]
  have hxnn : (0 : ℚ) ≤ (it.start : ℚ) := by exact_mod_cast hstart
  obtain ⟨hcpos, hcle, hcm1, hmax⟩ :=
    grid_index_max m.resolution (get_end_tick m) (it.start : ℚ) hres hxnn
  set c := searchsortedRight (gridList m.resolution (get_end_tick m)) (it.start : ℚ) with hcdef
  have hres_it : quantize_item m.resolution (get_end_tick m) it
      = { it with
          start := it.start + (pyRound (((c - 1 : ℕ) : ℚ) * gridTicks m.resolution) - it.start)
          stop := it.stop.map (fun e => e + (pyRound (((c - 1 : ℕ) : ℚ) * gridTicks m.resolution) - it.start)) } := by
    have hgd : (gridList m.resolution (get_end_tick m)).getD (c - 1) 0
        = ((c - 1 : ℕ) : ℚ) * gridTicks m.resolution := by
      unfold gridList
      exact getD_map_range _ _ _ (by omega)
    unfold quantize_item
    dsimp only
    rw [← hcdef, if_pos hcpos, hgd]
  refine ⟨_, hq, ?_, ?_⟩
  · intro e he
    rw [hres_it]
    refine ⟨e + (pyRound (((c - 1 : ℕ) : ℚ) * gridTicks m.resolution) - it.start), ?_, ?_⟩
    · rw [he]
      rfl
    · simp only
      ring
  · refine ⟨c - 1, by omega, ?_, hcm1, hmax⟩
    rw [hres_it]
    simp only
    ring

/-- Witness for C5: resolution 480, end tick 960, note at start 45. -/
theorem quantize_items_snap_witness :
    ((0 : ℕ) < 480 ∧ (0 : ℤ) ≤ 45) ∧
    (∃ it', (quantize_items exMidi480 [exNote45]).get? 0 = some it' ∧
      (∀ e, exNote45.stop = some e →
        ∃ e', it'.stop = some e' ∧ e' - it'.start = e - exNote45.start) ∧
      ∃ j, j < gridCount exMidi480.resolution (get_end_tick exMidi480) ∧
        it'.start = pyRound ((j : ℚ) * gridTicks exMidi480.resolution) ∧
        (j : ℚ) * gridTicks exMidi480.resolution ≤ (exNote45.start : ℚ) ∧
        (∀ k, k < gridCount exMidi480.resolution (get_end_tick exMidi480) →
          (k : ℚ) * gridTicks exMidi480.resolution ≤ (exNote45.start : ℚ) → k ≤ j)) :=
  ⟨⟨by decide, by decide⟩,
    quantize_items_snap exMidi480 [exNote45] 0 (by decide) (by decide) (by decide)⟩

/-! ### Encoder synthetic carry-over pairs (claim C1) -/

/-- C1 counterexample: with a chord current from bar 1 and bar 2's group
redeclaring a chord at position 0, the encoder still emits the synthetic
`Position_0 + Chord` pair at the start of bar 2 (tokens 7-8 below), contrary
to the claim that no synthetic pair is emitted for such a bar. -/
theorem encoder_synth_pair_counterexample :
    get_remi_events exMidiTS (fun _ => "piano") exGroupsC1
      = some ["Bar_1", "Time Signature_4/4", "Position_0", "Chord_C:maj",
              "Bar_2", "Time Signature_4/4", "Position_0", "Chord_C:maj",
              "Position_0", "Chord_D:min"] ∧
    exGroupsC1.get? 1 = some (1920, [exChordItem 1920 "D:min"], 3840) ∧
    (exChordItem 1920 "D:min").name = "Chord" ∧
    (exChordItem 1920 "D:min").start = 1920 := by
  refine ⟨?_, by decide, by decide, by decide⟩
  with_unfolding_all decide

lemma foldlM_processItem_append (resolution : ℕ) (progName : ℤ → String)
    (flags : List ℚ) (items : List Item) :
    ∀ (acc r : List Event × EncState),
      items.foldlM (processItem resolution progName flags) acc = some r →
      ∃ δ, r.1 = acc.1 ++ δ := by
  induction items with
  | nil =>
    intro acc r h
    rw [List.foldlM_nil] at h
    obtain rfl := Option.some.inj h
    exact ⟨[], by simp⟩
  | cons it rest ih =>
    intro acc r h
    rw [List.foldlM_cons] at h
    cases hstep : processItem resolution progName flags acc it with
    | none => rw [hstep] at h; cases h
    | some acc1 =>
      rw [hstep] at h
      obtain ⟨δ2, hδ2⟩ := ih acc1 r h
      have hδ1 : ∃ δ1, acc1.1 = acc.1 ++ δ1 := by
        unfold processItem at hstep
        dsimp only at hstep
        split_ifs at hstep with h1 h2 h3 h4 h5
        · cases hne : noteEvents resolution progName
              ⟨POSITION_KEY, some (it.start : ℚ),
                .s (toString (argminAbs flags (it.start : ℚ)))⟩ it with
          | none => rw [hne] at hstep; cases hstep
          | some l =>
            rw [hne, Option.map_some'] at hstep
            obtain rfl := Option.some.inj hstep
            exact ⟨l, rfl⟩
        · obtain rfl := Option.some.inj hstep
          exact ⟨_, rfl⟩
        · obtain rfl := Option.some.inj hstep
          exact ⟨[], by simp⟩
        · split at hstep
          · obtain rfl := Option.some.inj hstep
            exact ⟨_, rfl⟩
          · cases hstep
        · obtain rfl := Option.some.inj hstep
          exact ⟨[], by simp⟩
        · obtain rfl := Option.some.inj hstep
          exact ⟨[], by simp⟩
      obtain ⟨δ1, hδ1⟩ := hδ1
      exact ⟨δ1 ++ δ2, by rw [hδ2, hδ1, List.append_assoc]⟩

/-- The events a non-Chord item contributes carry one of the six item-level
keys, and the chord carry state is untouched. -/
lemma processItem_not_chord (resolution : ℕ) (progName : ℤ → String)
    (flags : List ℚ) (acc : List Event × EncState) (it : Item)
    (r : List Event × EncState) (hit : it.name ≠ "Chord")
    (h : processItem resolution progName flags acc it = some r) :
    (∃ δ, r.1 = acc.1 ++ δ ∧ ∀ e ∈ δ,
      e.name ∈ [POSITION_KEY, INSTRUMENT_KEY, PITCH_KEY, VELOCITY_KEY, DURATION_KEY, TEMPO_KEY]) ∧
    r.2.currentChord = acc.2.currentChord := by
  unfold processItem at h
  dsimp only at h
  split_ifs at h with h1 h2 h3
  · cases hne : noteEvents resolution progName
        ⟨POSITION_KEY, some (it.start : ℚ),
          .s (toString (argminAbs flags (it.start : ℚ)))⟩ it with
    | none => rw [hne] at h; cases h
    | some l =>
      rw [hne, Option.map_some'] at h
      obtain rfl := Option.some.inj h
      refine ⟨⟨l, rfl, ?_⟩, rfl⟩
      -- extract the explicit 5-event list from noteEvents
      obtain ⟨nm, s0, e0, v0, p0, i0⟩ := it
      rcases i0 with _ | instr
      · exact absurd hne (by simp [noteEvents])
      rcases p0 with _ | pv
      · exact absurd hne (by simp [noteEvents])
      rcases pv with pvn | pvs
      case _ =>
        rcases v0 with _ | vel
        · exact absurd hne (by simp [noteEvents])
        rcases e0 with _ | stopv
        · exact absurd hne (by simp [noteEvents])
        have hl := Option.some.inj hne
        subst hl
        intro e he
        simp only [List.mem_cons, List.not_mem_nil, or_false] at he
        rcases he with rfl | rfl | rfl | rfl | rfl <;> simp
      case _ =>
        exact absurd hne (by simp [noteEvents])
  · split at h
    · obtain rfl := Option.some.inj h
      refine ⟨⟨_, rfl, ?_⟩, rfl⟩
      intro e he
      simp only [List.mem_cons, List.not_mem_nil, or_false] at he
      rcases he with rfl | rfl <;> simp
    · cases h
  · obtain rfl := Option.some.inj h
    exact ⟨⟨[], by simp, by simp⟩, rfl⟩
  · obtain rfl := Option.some.inj h
    exact ⟨⟨[], by simp, by simp⟩, rfl⟩

lemma foldlM_processItem_not_chord (resolution : ℕ) (progName : ℤ → String)
    (flags : List ℚ) (items : List Item) :
    ∀ (acc r : List Event × EncState),
      (∀ it ∈ items, it.name ≠ "Chord") →
      items.foldlM (processItem resolution progName flags) acc = some r →
      (∀ e ∈ r.1, e ∈ acc.1 ∨
        e.name ∈ [POSITION_KEY, INSTRUMENT_KEY, PITCH_KEY, VELOCITY_KEY, DURATION_KEY, TEMPO_KEY]) ∧
      r.2.currentChord = acc.2.currentChord := by
  induction items with
  | nil =>
    intro acc r _ h
    rw [List.foldlM_nil] at h
    obtain rfl := Option.some.inj h
    exact ⟨fun e he => Or.inl he, rfl⟩
  | cons it rest ih =>
    intro acc r hnames h
    rw [List.foldlM_cons] at h
    cases hstep : processItem resolution progName flags acc it with
    | none => rw [hstep] at h; cases h
    | some acc1 =>
      rw [hstep] at h
      obtain ⟨⟨δ, hδ, hδn⟩, hcc⟩ := processItem_not_chord resolution progName flags acc it acc1
        (hnames it (List.mem_cons_self it rest)) hstep
      obtain ⟨hmem, hcc2⟩ :=
        ih acc1 r (fun x hx => hnames x (List.mem_cons_of_mem it hx)) h
      refine ⟨?_, by rw [hcc2, hcc]⟩
      intro e he
      rcases hmem e he with hin | hin
      · rw [hδ] at hin
        rcases List.mem_append.mp hin with hl | hl
        · exact Or.inl hl
        · exact Or.inr (hδn e hl)
      · exact Or.inr hin

lemma synthTempo_names (st : EncState) (l : List Event)
    (h : synthTempo st = some l) :
    ∀ e ∈ l, e.name ∈ [POSITION_KEY, TEMPO_KEY] := by
  unfold synthTempo at h
  cases hc : st.currentTempo with
  | none =>
    rw [hc] at h
    obtain rfl := Option.some.inj h
    intro e he; cases he
  | some c =>
    rw [hc] at h
    dsimp only at h
    cases hp : c.pitch with
    | none => rw [hp] at h; cases h
    | some pv =>
      rw [hp] at h
      cases pv with
      | num v =>
        obtain rfl := Option.some.inj h
        intro e he
        simp only [List.mem_cons, List.not_mem_nil, or_false] at he
        rcases he with rfl | rfl <;> simp
      | str s => simp at h

/-- With no carried chord and no chord items, a bar emits only the eight
non-Chord token categories and the chord carry state stays empty. -/
lemma barEvents_no_chord (m : MidiData) (progName : ℤ → String) (nd : ℕ)
    (st : EncState) (g : BarGroup) (evts : List Event) (st' : EncState)
    (hcc : st.currentChord = none) (hitems : ∀ it ∈ g.2.1, it.name ≠ "Chord")
    (h : barEvents m progName nd st g = some (evts, st')) :
    (∀ e ∈ evts, e.name ∈ [BAR_KEY, TIME_SIGNATURE_KEY, POSITION_KEY, INSTRUMENT_KEY,
      PITCH_KEY, VELOCITY_KEY, DURATION_KEY, TEMPO_KEY]) ∧
    st'.currentChord = none := by
  unfold barEvents at h
  cases hts : get_time_signature m g.1 with
  | none => rw [hts] at h; cases h
  | some ts =>
    rw [hts] at h
    dsimp only at h
    split_ifs at h with hppb
    cases hsynth : synthTempo st with
    | none => rw [hsynth] at h; cases h
    | some tEvts =>
      rw [hsynth] at h
      dsimp only at h
      have hhdr : ∀ e ∈ ([⟨BAR_KEY, none, .s (toString nd)⟩,
          ⟨TIME_SIGNATURE_KEY, none,
            .s (toString ts.numerator ++ "/" ++ toString ts.denominator)⟩] : List Event)
          ++ synthChord st ++ tEvts,
          e.name ∈ [BAR_KEY, TIME_SIGNATURE_KEY, POSITION_KEY, INSTRUMENT_KEY,
            PITCH_KEY, VELOCITY_KEY, DURATION_KEY, TEMPO_KEY] := by
        intro e he
        rcases List.mem_append.mp he with he1 | he1
        · rcases List.mem_append.mp he1 with he2 | he2
          · simp only [List.mem_cons, List.not_mem_nil, or_false] at he2
            rcases he2 with rfl | rfl <;> simp
          · rw [synthChord, hcc] at he2
            cases he2
        · have := synthTempo_names st tEvts hsynth e he1
          simp only [List.mem_cons, List.not_mem_nil, or_false] at this
          rcases this with h' | h' <;> simp [h']
      obtain ⟨hmem, hccEq⟩ := foldlM_processItem_not_chord m.resolution progName _ g.2.1 _
        (evts, st') hitems h
      constructor
      · intro e he
        rcases hmem e he with hin | hin
        · exact hhdr e hin
        · simp only [List.mem_cons, List.not_mem_nil, or_false] at hin
          rcases hin with h' | h' | h' | h' | h' | h' <;> simp [h']
      · rw [hccEq]
        exact hcc

/-- C1 amended: the synthetic `Position_0 + Chord` (resp. `Tempo`) pair is
emitted at the start of a bar exactly when a chord (resp. tempo) is still
current from a previous bar, regardless of whether the bar group redeclares
one at position 0; when no chord is current and the group holds no chord
item, the bar emits no Chord token at all. -/
theorem encoder_synth_pair_amended (m : MidiData) (progName : ℤ → String)
    (nd : ℕ) (st : EncState) (g : BarGroup) (ts : TimeSig) (tEvts : List Event)
    (hts : get_time_signature m g.1 = some ts)
    (hppb : ¬ positionsPerBarOf ts ≤ 0)
    (hsynthT : synthTempo st = some tEvts) :
    (∀ c, st.currentChord = some c →
      ∀ evts st', barEvents m progName nd st g = some (evts, st') →
        ∃ rest, evts = ⟨BAR_KEY, none, .s (toString nd)⟩ ::
          ⟨TIME_SIGNATURE_KEY, none,
            .s (toString ts.numerator ++ "/" ++ toString ts.denominator)⟩ ::
          ⟨POSITION_KEY, some 0, .s "0"⟩ ::
          ⟨CHORD_KEY, some (c.start : ℚ), chordItemValue c⟩ :: (tEvts ++ rest)) ∧
    (st.currentChord = none → (∀ it ∈ g.2.1, it.name ≠ "Chord") →
      ∀ evts st', barEvents m progName nd st g = some (evts, st') →
        (∀ e ∈ evts, e.name ≠ CHORD_KEY) ∧ st'.currentChord = none) := by
  constructor
  · intro c hc evts st' h
    unfold barEvents at h
    rw [hts] at h
    dsimp only at h
    rw [if_neg hppb, hsynthT] at h
    dsimp only at h
    obtain ⟨δ, hδ⟩ := foldlM_processItem_append m.resolution progName _ g.2.1 _ (evts, st') h
    dsimp only at hδ
    refine ⟨δ, ?_⟩
    rw [hδ]
    rw [synthChord, hc]
    simp
  · intro hcc hitems evts st' h
    obtain ⟨hmem, hcc'⟩ := barEvents_no_chord m progName nd st g evts st' hcc hitems h
    refine ⟨?_, hcc'⟩
    intro e he hcontra
    have := hmem e he
    rw [hcontra] at this
    simp [CHORD_KEY, BAR_KEY, TIME_SIGNATURE_KEY, POSITION_KEY, INSTRUMENT_KEY,
      PITCH_KEY, VELOCITY_KEY, DURATION_KEY, TEMPO_KEY] at this

/-- Witness for the amended C1 at the counterexample's second bar. -/
theorem encoder_synth_pair_amended_witness :
    (get_time_signature exMidiTS (1920 : ℤ) = some ⟨4, 4, 0⟩ ∧
      ¬ positionsPerBarOf ⟨4, 4, 0⟩ ≤ 0 ∧
      synthTempo ⟨some (exChordItem 0 "C:maj"), none⟩ = some []) ∧
    ((∀ c, (⟨some (exChordItem 0 "C:maj"), none⟩ : EncState).currentChord = some c →
      ∀ evts st', barEvents exMidiTS (fun _ => "piano") 2
          ⟨some (exChordItem 0 "C:maj"), none⟩ (1920, [exChordItem 1920 "D:min"], 3840)
          = some (evts, st') →
        ∃ rest, evts = ⟨BAR_KEY, none, .s (toString 2)⟩ ::
          ⟨TIME_SIGNATURE_KEY, none,
            .s (toString (4 : ℤ) ++ "/" ++ toString (4 : ℤ))⟩ ::
          ⟨POSITION_KEY, some 0, .s "0"⟩ ::
          ⟨CHORD_KEY, some (c.start : ℚ), chordItemValue c⟩ :: (([] : List Event) ++ rest)) ∧
    ((⟨some (exChordItem 0 "C:maj"), none⟩ : EncState).currentChord = none →
      (∀ it ∈ ((1920 : ℤ), [exChordItem 1920 "D:min"], (3840 : ℤ)).2.1, it.name ≠ "Chord") →
      ∀ evts st', barEvents exMidiTS (fun _ => "piano") 2
          ⟨some (exChordItem 0 "C:maj"), none⟩ (1920, [exChordItem 1920 "D:min"], 3840)
          = some (evts, st') →
        (∀ e ∈ evts, e.name ≠ CHORD_KEY) ∧ st'.currentChord = none)) :=
  ⟨⟨by with_unfolding_all decide, by with_unfolding_all decide, by decide⟩,
    encoder_synth_pair_amended exMidiTS (fun _ => "piano") 2
      ⟨some (exChordItem 0 "C:maj"), none⟩ (1920, [exChordItem 1920 "D:min"], 3840)
      ⟨4, 4, 0⟩ [] (by with_unfolding_all decide) (by with_unfolding_all decide) (by decide)⟩

/-! ### Short pieces yield no chords (claim C8) -/

lemma mem_rdropWhile {α : Type} (p : α → Bool) (l : List α) (x : α)
    (h : x ∈ l.rdropWhile p) : x ∈ l := by
  unfold List.rdropWhile at h
  rw [List.mem_reverse] at h
  have := List.Sublist.mem h (List.dropWhile_sublist p)
  rwa [List.mem_reverse] at this

/-- With an empty chord list, every item inside every bar group is a tempo
or note item, hence not a Chord. -/
lemma group_items_nil_chords_names (m : MidiData) (noteItems tempoItems : List Item)
    (hn : ∀ it ∈ noteItems, it.name = "Note")
    (ht : ∀ it ∈ tempoItems, it.name = "Tempo") :
    ∀ g ∈ group_items m noteItems [] tempoItems, ∀ it ∈ g.2.1, it.name ≠ "Chord" := by
  intro g hg it hit
  unfold group_items at hg
  rw [if_neg (by simp)] at hg
  have hg1 := mem_rdropWhile _ _ _ hg
  have hg2 := List.Sublist.mem hg1 (List.dropWhile_sublist _)
  obtain ⟨p, hp, hgp⟩ := List.mem_map.mp hg2
  have hit2 : it ∈ List.insertionSort (fun a b => itemLE a b = true)
      (tempoItems ++ noteItems) := by
    rw [← hgp] at hit
    exact (List.mem_filter.mp hit).1
  have hit3 : it ∈ tempoItems ++ noteItems :=
    (List.perm_insertionSort _ _).mem_iff.mp hit2
  rcases List.mem_append.mp hit3 with h | h
  · rw [ht it h]
    decide
  · rw [hn it h]
    decide

lemma get_remi_eventsList_fold_no_chord (m : MidiData) (progName : ℤ → String) :
    ∀ (groups : List BarGroup) (acc r : List Event × EncState × ℕ),
      (∀ g ∈ groups, ∀ it ∈ g.2.1, it.name ≠ "Chord") →
      acc.2.1.currentChord = none →
      (∀ e ∈ acc.1, e.name ∈ [BAR_KEY, TIME_SIGNATURE_KEY, POSITION_KEY, INSTRUMENT_KEY,
        PITCH_KEY, VELOCITY_KEY, DURATION_KEY, TEMPO_KEY]) →
      groups.foldlM (fun (acc : List Event × EncState × ℕ) g => do
          let r ← barEvents m progName (acc.2.2 + 1) acc.2.1 g
          pure (acc.1 ++ r.1, r.2, acc.2.2 + 1)) acc = some r →
      ∀ e ∈ r.1, e.name ∈ [BAR_KEY, TIME_SIGNATURE_KEY, POSITION_KEY, INSTRUMENT_KEY,
        PITCH_KEY, VELOCITY_KEY, DURATION_KEY, TEMPO_KEY] := by
  intro groups
  induction groups with
  | nil =>
    intro acc r _ _ hacc h
    rw [List.foldlM_nil] at h
    obtain rfl := Option.some.inj h
    exact hacc
  | cons g rest ih =>
    intro acc r hgroups hcc hacc h
    rw [List.foldlM_cons] at h
    cases hbar : barEvents m progName (acc.2.2 + 1) acc.2.1 g with
    | none => rw [hbar] at h; cases h
    | some be =>
      rw [hbar] at h
      obtain ⟨hnames, hcc'⟩ := barEvents_no_chord m progName (acc.2.2 + 1) acc.2.1 g
        be.1 be.2 hcc (hgroups g (List.mem_cons_self g rest)) hbar
      refine ih (acc.1 ++ be.1, be.2, acc.2.2 + 1) r
        (fun g' hg' => hgroups g' (List.mem_cons_of_mem g hg')) hcc' ?_ h
      intro e he
      rcases List.mem_append.mp he with h1 | h1
      · exact hacc e h1
      · exact hnames e h1

lemma listIsPre_head_ne (c c' : Char) (p s : List Char) (h : (c == c') = false) :
    listIsPre (c :: p) (c' :: s) = false := by
  simp [listIsPre, h]

/-- A rendered token of any of the eight non-Chord categories is not a
Chord token. -/
lemma render_not_chord (e : Event)
    (h : e.name ∈ [BAR_KEY, TIME_SIGNATURE_KEY, POSITION_KEY, INSTRUMENT_KEY,
      PITCH_KEY, VELOCITY_KEY, DURATION_KEY, TEMPO_KEY]) :
    isChordToken (renderToken e) = false := by
  have hdata : (renderToken e).data = e.name.data ++ ('_' :: (e.value.render).data) := by
    unfold renderToken
    rw [String.data_append, String.data_append]
    rw [show ("_" : String).data = ['_'] from rfl]
    rw [List.append_assoc]
    rfl
  unfold isChordToken
  rw [hdata]
  simp only [List.mem_cons, List.not_mem_nil, or_false] at h
  rcases h with h | h | h | h | h | h | h | h <;> rw [h] <;>
    exact listIsPre_head_ne _ _ _ _ (by decide)

/-- C8: for a MIDI input whose end tick is strictly below one quarter note,
`extract_chords` returns the empty list without raising, and the encoded
token stream of the resulting pipeline (whose chord item list is that empty
list) contains no Chord event and no Chord token. -/
theorem extract_chords_short_piece (m : MidiData) (progName : ℤ → String)
    (noteItems tempoItems : List Item)
    (hshort : get_end_tick m < (m.resolution : ℤ))
    (hn : ∀ it ∈ noteItems, it.name = "Note")
    (ht : ∀ it ∈ tempoItems, it.name = "Tempo") :
    extract_chords m = some [] ∧
    (∀ evts, get_remi_eventsList m progName (group_items m noteItems [] tempoItems)
        = some evts → ∀ e ∈ evts, e.name ≠ CHORD_KEY) ∧
    (∀ toks, get_remi_events m progName (group_items m noteItems [] tempoItems)
        = some toks → ∀ tk ∈ toks, isChordToken tk = false) := by
  have hnames := group_items_nil_chords_names m noteItems tempoItems hn ht
  have main : ∀ evts, get_remi_eventsList m progName (group_items m noteItems [] tempoItems)
      = some evts → ∀ e ∈ evts,
        e.name ∈ [BAR_KEY, TIME_SIGNATURE_KEY, POSITION_KEY, INSTRUMENT_KEY,
          PITCH_KEY, VELOCITY_KEY, DURATION_KEY, TEMPO_KEY] := by
    intro evts hevts
    unfold get_remi_eventsList at hevts
    cases hfold : (group_items m noteItems [] tempoItems).foldlM
        (fun (acc : List Event × EncState × ℕ) g => do
          let r ← barEvents m progName (acc.2.2 + 1) acc.2.1 g
          pure (acc.1 ++ r.1, r.2, acc.2.2 + 1))
        (([] : List Event), (⟨none, none⟩ : EncState), (0 : ℕ)) with
    | none => rw [hfold] at hevts; cases hevts
    | some racc =>
      rw [hfold] at hevts
      obtain rfl := Option.some.inj hevts
      exact get_remi_eventsList_fold_no_chord m progName _ _ racc hnames rfl
        (fun e he => absurd he (List.not_mem_nil e)) hfold
  refine ⟨?_, ?_, ?_⟩
  · unfold extract_chords
    dsimp only
    rw [if_pos hshort]
  · intro evts hevts e he hcontra
    have := main evts hevts e he
    rw [hcontra] at this
    simp [CHORD_KEY, BAR_KEY, TIME_SIGNATURE_KEY, POSITION_KEY, INSTRUMENT_KEY,
      PITCH_KEY, VELOCITY_KEY, DURATION_KEY, TEMPO_KEY] at this
  · intro toks htoks tk htk
    unfold get_remi_events at htoks
    cases hlist : get_remi_eventsList m progName (group_items m noteItems [] tempoItems) with
    | none => rw [hlist] at htoks; cases htoks
    | some evts =>
      rw [hlist] at htoks
      obtain rfl := Option.some.inj htoks
      obtain ⟨e, he, rfl⟩ := List.mem_map.mp htk
      exact render_not_chord e (main evts hlist e he)

/-- Witness for C8: a half-quarter-note piece with a single note item. -/
theorem extract_chords_short_piece_witness :
    (get_end_tick exMidiShort < (exMidiShort.resolution : ℤ) ∧
      (∀ it ∈ [exNote45], it.name = "Note") ∧
      (∀ it ∈ ([] : List Item), it.name = "Tempo")) ∧
    (extract_chords exMidiShort = some [] ∧
    (∀ evts, get_remi_eventsList exMidiShort (fun _ => "piano")
        (group_items exMidiShort [exNote45] [] []) = some evts →
      ∀ e ∈ evts, e.name ≠ CHORD_KEY) ∧
    (∀ toks, get_remi_events exMidiShort (fun _ => "piano")
        (group_items exMidiShort [exNote45] [] []) = some toks →
      ∀ tk ∈ toks, isChordToken tk = false)) :=
  ⟨⟨by with_unfolding_all decide, by decide, by decide⟩,
    extract_chords_short_piece exMidiShort (fun _ => "piano") [exNote45] []
      (by with_unfolding_all decide) (by decide) (by decide)⟩

/-! ### Decoder lemmas -/

/-- A head matching no pattern is skipped: one unfolding of the scan. -/
theorem scanTokens_skip (nm : String → Option ℕ) (L : ℕ) (e : String)
    (rest : List String) (st : DecState) (h1 : e ≠ EOS_TOKEN)
    (h2 : isBarTok e = false) (h3 : strIn (POSITION_KEY ++ "_") e = false) :
    scanTokens nm L (e :: rest) st = scanTokens nm L rest st := by
  simp [scanTokens, h1, h2, matchesTempoPair, matchesNoteGroup, h3]

/-- A successful association-list lookup members the pair. -/
theorem lookup_mem {α β : Type} [BEq α] [LawfulBEq α] {l : List (α × β)}
    {k : α} {v : β} (h : l.lookup k = some v) : (k, v) ∈ l := by
  induction l with
  | nil => simp [List.lookup] at h
  | cons a t ih =>
    obtain ⟨k', v'⟩ := a
    rw [List.lookup] at h
    cases hk : (k == k') with
    | false =>
      rw [hk] at h
      exact List.mem_cons_of_mem _ (ih h)
    | true =>
      rw [hk] at h
      obtain rfl : v' = v := Option.some.inj h
      obtain rfl : k = k' := eq_of_beq hk
      exact List.mem_cons_self _ _

/-- `addNote` preserves the clamped-velocity property when both the
resolved instrument's notes and the new note satisfy it. -/
theorem addNote_velClamped {l : List (String × PInstr)} {name : String}
    {inst : PInstr} {note : PNote} (hl : velClamped l)
    (hi : ∀ nt ∈ inst.notes, ∃ b ∈ DEFAULT_VELOCITY_BINS, nt.velocity = min 127 b)
    (hn : ∃ b ∈ DEFAULT_VELOCITY_BINS, note.velocity = min 127 b) :
    velClamped (addNote l name inst note) := by
  intro p hp nt hnt
  unfold addNote at hp
  cases hlk : l.lookup name with
  | none =>
    rw [hlk] at hp
    rcases List.mem_append.1 hp with hmem | hmem
    · exact hl p hmem nt hnt
    · rcases List.mem_singleton.1 hmem with rfl
      rcases List.mem_append.1 hnt with hn2 | hn2
      · exact hi nt hn2
      · rcases List.mem_singleton.1 hn2 with rfl
        exact hn
  | some i0 =>
    rw [hlk] at hp
    obtain ⟨q, hq, hpe⟩ := List.mem_map.1 hp
    by_cases hname : q.1 = name
    · rw [if_pos hname] at hpe
      subst hpe
      rcases List.mem_append.1 hnt with hn2 | hn2
      · exact hl q hq nt hn2
      · rcases List.mem_singleton.1 hn2 with rfl
        exact hn
    · rw [if_neg hname] at hpe
      subst hpe
      exact hl q hq nt hnt

/-- The Bar branch never touches the instrument table. -/
theorem barStep_instruments {st st' : DecState} {rest : List String}
    (h : barStep st rest = .ok st') : st'.instruments = st.instruments := by
  unfold barStep at h
  dsimp only at h
  split at h
  all_goals try split_ifs at h
  all_goals try split at h
  all_goals try split at h
  all_goals try split_ifs at h
  all_goals
    first
    | (obtain rfl := (Except.ok.inj h).symm; rfl)
    | cases h

/-- The Position–Tempo branch never touches the instrument table. -/
theorem tempoStep_instruments {st st' : DecState} {e t : String}
    (h : tempoStep st e t = .ok st') : st'.instruments = st.instruments := by
  unfold tempoStep at h
  split at h
  all_goals try split at h
  all_goals try split at h
  all_goals try split_ifs at h
  all_goals
    first
    | (obtain rfl := (Except.ok.inj h).symm; rfl)
    | cases h

/-- Whatever instrument the note branch resolves, its notes are either
already in the table or empty. -/
theorem resolveInst_velClamped {nm : String → Option ℕ}
    {l : List (String × PInstr)} {name : String} {inst : PInstr}
    (h : resolveInst nm l name = .ok inst) (hv : velClamped l) :
    ∀ nt ∈ inst.notes, ∃ b ∈ DEFAULT_VELOCITY_BINS, nt.velocity = min 127 b := by
  unfold resolveInst at h
  cases hlk : l.lookup name with
  | some i0 =>
    rw [hlk] at h
    obtain rfl := Except.ok.inj h
    exact hv _ (lookup_mem hlk)
  | none =>
    rw [hlk] at h
    dsimp only at h
    split_ifs at h with hdr
    · obtain rfl := (Except.ok.inj h).symm
      intro nt hnt
      cases hnt
    · cases hnm : nm name with
      | some prog =>
        rw [hnm] at h
        obtain rfl := (Except.ok.inj h).symm
        intro nt hnt
        cases hnt
      | none => rw [hnm] at h; cases h

/-- The note branch preserves the clamped-velocity property: the only
note it can append carries velocity `min 127 bins[velocity_index]`. -/
theorem noteStep_velClamped {nm : String → Option ℕ} {L : ℕ} {st st' : DecState}
    {e a b c d : String} (h : noteStep nm L st e a b c d = .ok st')
    (hv : velClamped st.instruments) : velClamped st'.instruments := by
  unfold noteStep at h
  dsimp only at h
  split at h
  · cases h
  · split_ifs at h with hskip
    · obtain rfl := (Except.ok.inj h).symm
      exact hv
    · split at h
      · cases h
      · rename_i inst hinst
        split at h
        · cases h
        · split at h
          · cases h
          · split at h
            · cases h
            · rename_i binVel hbin
              split at h
              · cases h
              · split at h
                · cases h
                · obtain rfl := (Except.ok.inj h).symm
                  refine addNote_velClamped hv ?_ ?_
                  · exact resolveInst_velClamped hinst hv
                  · exact ⟨binVel, List.get?_mem hbin, rfl⟩

/-- The whole scan preserves the clamped-velocity property. -/
theorem scanTokens_velClamped (nm : String → Option ℕ) (L : ℕ) :
    ∀ (events : List String) (st st' : DecState),
      scanTokens nm L events st = .ok st' → velClamped st.instruments →
      velClamped st'.instruments := by
  intro events
  induction events with
  | nil =>
    intro st st' h hv
    simp only [scanTokens] at h
    obtain rfl := Except.ok.inj h
    exact hv
  | cons e rest ih =>
    intro st st' h hv
    simp only [scanTokens] at h
    split_ifs at h with h1 h2 h3 h4
    · obtain rfl := Except.ok.inj h
      exact hv
    · cases hb : barStep st rest with
      | error m => rw [hb] at h; cases h
      | ok st1 =>
        rw [hb] at h
        exact ih st1 st' h (by rw [barStep_instruments hb]; exact hv)
    · cases rest with
      | nil => exact ih st st' h hv
      | cons t r =>
        dsimp only at h
        cases htp : tempoStep st e t with
        | error m => rw [htp] at h; cases h
        | ok st1 =>
          rw [htp] at h
          exact ih st1 st' h (by rw [tempoStep_instruments htp]; exact hv)
    · rcases rest with _ | ⟨a, _ | ⟨b, _ | ⟨c, _ | ⟨d, r5⟩⟩⟩⟩
      · exact ih st st' h hv
      · exact ih st st' h hv
      · exact ih st st' h hv
      · exact ih st st' h hv
      · dsimp only at h
        cases hns : noteStep nm L st e a b c d with
        | error m => rw [hns] at h; cases h
        | ok st1 =>
          rw [hns] at h
          exact ih st1 st' h (noteStep_velClamped hns hv)
    · exact ih st st' h hv

/-- C10: for every admitted note, the decoder clamps the decoded velocity
to at most 127 — every note of every instrument in a successful
`remi2midi` result has velocity `min 127 b` for some velocity-bin value
`b`, hence at most 127; and the top bin (index 32) indeed holds the
out-of-range value 128, so the clamp is what keeps the MIDI velocity in
range. -/
theorem decoder_velocity_clamped (nm : String → Option ℕ) (bpm0 : ℚ)
    (num0 denom0 : ℤ) (L : ℕ) (events : List String) (pm : PMidi)
    (h : remi2midi nm bpm0 num0 denom0 L events = .ok pm) :
    DEFAULT_VELOCITY_BINS.get? 32 = some 128 ∧
    ∀ p ∈ pm.instruments, ∀ nt ∈ p.2.notes,
      nt.velocity ≤ 127 ∧ ∃ b ∈ DEFAULT_VELOCITY_BINS, nt.velocity = min 127 b := by
  refine ⟨by decide, ?_⟩
  unfold remi2midi at h
  split at h
  · cases h
  · split at h
    · cases h
    · rename_i st hscan
      obtain rfl := (Except.ok.inj h).symm
      intro p hp nt hnt
      have hvc : velClamped st.instruments := by
        refine scanTokens_velClamped nm L events _ st hscan ?_
        intro q hq
        exact absurd hq (List.not_mem_nil q)
      obtain ⟨b, hb, he⟩ := hvc p hp nt hnt
      exact ⟨by rw [he]; exact min_le_left _ _, ⟨b, hb, he⟩⟩

/-- C10 witness: the stream with the top velocity bin (`Velocity_32`,
bin value 128) decodes to a single drum note of velocity 127. -/
theorem decoder_velocity_clamped_witness :
    (remi2midi (fun _ => none) 120 4 4 16
        ["Bar_1", "Position_0", "Instrument_drum", "Pitch_60", "Velocity_32",
          "Duration_0"] =
      .ok ⟨120, [⟨4, 4, 0⟩], [("drum", ⟨true, 0, [⟨127, 60, 0, 1 / 24⟩]⟩)]⟩) ∧
    (DEFAULT_VELOCITY_BINS.get? 32 = some 128 ∧
      ∀ p ∈ (PMidi.mk 120 [⟨4, 4, 0⟩]
          [("drum", ⟨true, 0, [⟨127, 60, 0, 1 / 24⟩]⟩)]).instruments,
        ∀ nt ∈ p.2.notes,
          nt.velocity ≤ 127 ∧ ∃ b ∈ DEFAULT_VELOCITY_BINS, nt.velocity = min 127 b) :=
  ⟨by with_unfolding_all decide,
    decoder_velocity_clamped (fun _ => none) 120 4 4 16
      ["Bar_1", "Position_0", "Instrument_drum", "Pitch_60", "Velocity_32",
        "Duration_0"]
      ⟨120, [⟨4, 4, 0⟩], [("drum", ⟨true, 0, [⟨127, 60, 0, 1 / 24⟩]⟩)]⟩
      (by with_unfolding_all decide)⟩

/-- C4 (counterexample): the decoder is not total on arbitrary token
lists. The single-token stream `["Tempo_x"]` already raises: the
initial-tempo scan (`remi2midi` line 13) runs `int()` on the last
underscore field of the first `Tempo_`-containing token anywhere in the
stream, and `int("x")` raises `ValueError` — before the skipping scan is
even reached. -/
theorem decoder_total_counterexample :
    remi2midi (fun _ => none) 120 4 4 16 ["Tempo_x"] =
      .error "invalid literal for int" := by
  with_unfolding_all decide

/-- C4 (amended): within the scan loop, any token that matches no pattern
head — it is not the end-of-sequence token, does not contain `"Bar_"`,
and does not contain `"Position_"` — is skipped without effect, and the
scan halts with the current state at the end-of-sequence token. (The
original claim's "never raises an error" part is refuted by
`["Tempo_x"]`: malformed numeric fields *inside* a matched pattern, and
the initial-tempo scan, do raise.) -/
theorem decoder_skip_unmatched (nm : String → Option ℕ) (L : ℕ) (e : String)
    (rest : List String) (st : DecState) (h1 : e ≠ EOS_TOKEN)
    (h2 : isBarTok e = false) (h3 : strIn (POSITION_KEY ++ "_") e = false) :
    scanTokens nm L (e :: rest) st = scanTokens nm L rest st ∧
    scanTokens nm L (EOS_TOKEN :: rest) st = .ok st := by
  constructor
  · simp [scanTokens, h1, h2, matchesTempoPair, matchesNoteGroup, h3]
  · simp [scanTokens]

/-- C4 witness: a malformed token `"garbage"` is skipped by the scan, and
`<eos>` halts it, from a concrete decoder state. -/
theorem decoder_skip_unmatched_witness :
    ("garbage" ≠ EOS_TOKEN ∧ isBarTok "garbage" = false ∧
      strIn (POSITION_KEY ++ "_") "garbage" = false) ∧
    (scanTokens (fun _ => none) 16 ["garbage", "Bar_1"]
          (decInit 120 4 4) =
        scanTokens (fun _ => none) 16 ["Bar_1"] (decInit 120 4 4) ∧
      scanTokens (fun _ => none) 16 (EOS_TOKEN :: ["Bar_1"]) (decInit 120 4 4) =
        .ok (decInit 120 4 4)) :=
  ⟨⟨by decide, by decide, by decide⟩,
    decoder_skip_unmatched (fun _ => none) 16 "garbage" ["Bar_1"]
      (decInit 120 4 4) (by decide) (by decide) (by decide)⟩

/-- The drum track always resolves, to the existing entry or a fresh
drum instrument. -/
theorem resolveInst_drum (nm : String → Option ℕ) (l : List (String × PInstr)) :
    resolveInst nm l "drum" = .ok (drumInstOf l) := by
  unfold resolveInst drumInstOf
  cases hlk : l.lookup "drum" <;> simp [hlk]

/-- The note branch on a well-formed group under the polyphony limit:
admit the decoded note into the drum track and bump the counter. -/
theorem noteStep_admit (nm : String → Option ℕ) (L : ℕ) (st : DecState)
    {posTok insTok velTok durTok t : String} {pos vi di : ℕ} {bv : ℤ} {dur : ℕ}
    (hg : groupShape posTok insTok velTok durTok pos vi di) (ht : pitHyp t)
    (hbv : DEFAULT_VELOCITY_BINS.get? vi = some bv)
    (hdur : DEFAULT_DURATION_BINS.get? di = some dur)
    (hadm : ¬((st.poly.lookup (st.bar, pos, "drum")).isSome = true ∧
        L ≤ (st.poly.lookup (st.bar, pos, "drum")).getD 0)) :
    noteStep nm L st posTok insTok t velTok durTok =
      .ok { st with
        instruments := addNote st.instruments "drum" (drumInstOf st.instruments)
          (decNote st.lastTl st.bar pos bv dur t)
        poly := polySet st.poly (st.bar, pos, "drum")
          ((st.poly.lookup (st.bar, pos, "drum")).getD 0 + 1) } := by
  obtain ⟨hp1, hp2, hp3, hp4, hi1, hi2, hi3, hi4, hv1, hv2, hv3, hd1, hd2, hd3⟩ := hg
  obtain ⟨hpt1, hpt2, hpt3⟩ := ht
  obtain ⟨pv, hpv⟩ := Option.isSome_iff_exists.1 hpt3
  unfold noteStep
  rw [hp4]
  dsimp only
  rw [hi4]
  rw [if_neg hadm]
  rw [resolveInst_drum]
  dsimp only
  rw [hpv]
  dsimp only
  rw [hv3]
  dsimp only
  rw [hbv]
  dsimp only
  rw [hd3]
  dsimp only
  rw [hdur]
  dsimp only
  simp [decNote, hpv]

/-- The note branch on a well-formed group at a saturated counter:
silently drop the note, leaving the state unchanged. -/
theorem noteStep_skip (nm : String → Option ℕ) (L : ℕ) (st : DecState)
    {posTok insTok velTok durTok t : String} {pos vi di : ℕ} {c : ℕ}
    (hg : groupShape posTok insTok velTok durTok pos vi di)
    (hlk : st.poly.lookup (st.bar, pos, "drum") = some c) (hc : L ≤ c) :
    noteStep nm L st posTok insTok t velTok durTok = .ok st := by
  obtain ⟨hp1, hp2, hp3, hp4, hi1, hi2, hi3, hi4, hv1, hv2, hv3, hd1, hd2, hd3⟩ := hg
  unfold noteStep
  rw [hp4]
  dsimp only
  rw [hi4, hlk]
  rw [if_pos ⟨rfl, by simpa using hc⟩]

/-- Scanning one well-formed note group: the head fires exactly the note
branch, and the four trailing tokens are skipped when re-examined. -/
theorem scanTokens_group (nm : String → Option ℕ) (L : ℕ)
    {posTok insTok velTok durTok t : String} {pos vi di : ℕ}
    (hg : groupShape posTok insTok velTok durTok pos vi di) (ht : pitHyp t)
    (tail : List String) (st st1 : DecState)
    (hn : noteStep nm L st posTok insTok t velTok durTok = .ok st1) :
    scanTokens nm L (noteGroup posTok insTok velTok durTok t ++ tail) st =
      scanTokens nm L tail st1 := by
  obtain ⟨hp1, hp2, hp3, hp4, hi1, hi2, hi3, hi4, hv1, hv2, hv3, hd1, hd2, hd3⟩ := hg
  obtain ⟨hpt1, hpt2, hpt3⟩ := ht
  have hmg : matchesNoteGroup posTok (insTok :: t :: velTok :: durTok :: tail) = true := by
    simp [matchesNoteGroup, hp3, hi2, hpt2, hv2, hd2]
  have hmt : matchesTempoPair posTok (insTok :: t :: velTok :: durTok :: tail) = false := by
    simp [matchesTempoPair, hi3]
  have hlist : noteGroup posTok insTok velTok durTok t ++ tail =
      posTok :: insTok :: t :: velTok :: durTok :: tail := by
    simp [noteGroup]
  have step1 :
      scanTokens nm L (posTok :: insTok :: t :: velTok :: durTok :: tail) st =
        scanTokens nm L (insTok :: t :: velTok :: durTok :: tail) st1 := by
    simp only [scanTokens]
    rw [if_neg hp1]
    rw [if_neg (by rw [hp2]; exact Bool.false_ne_true)]
    rw [if_neg (by rw [hmt]; exact Bool.false_ne_true)]
    rw [if_pos hmg]
    try dsimp only
    rw [hn]
  have step2 := scanTokens_skip nm L insTok (t :: velTok :: durTok :: tail) st1
    hi1.1 hi1.2.1 hi1.2.2
  have step3 := scanTokens_skip nm L t (velTok :: durTok :: tail) st1
    hpt1.1 hpt1.2.1 hpt1.2.2
  have step4 := scanTokens_skip nm L velTok (durTok :: tail) st1
    hv1.1 hv1.2.1 hv1.2.2
  have step5 := scanTokens_skip nm L durTok tail st1 hd1.1 hd1.2.1 hd1.2.2
  rw [hlist, step1, step2, step3, step4, step5]

/-- Scanning a run of same-triple note groups from an `aState` with limit
16: the first `16 − ns.length` notes are admitted in stream order, the
rest silently dropped, and the scan never raises. -/
theorem scanA (nm : String → Option ℕ) {posTok insTok velTok durTok : String}
    {pos vi di : ℕ} {bv : ℤ} {dur : ℕ}
    (hg : groupShape posTok insTok velTok durTok pos vi di)
    (hbv : DEFAULT_VELOCITY_BINS.get? vi = some bv)
    (hdur : DEFAULT_DURATION_BINS.get? di = some dur)
    (barv : ℤ) (fr : RefFrame) (tsc : List TimeSig) :
    ∀ (pitToks tail : List String) (ns : List PNote),
      (∀ u ∈ pitToks, pitHyp u) → ns.length ≤ 16 →
      scanTokens nm 16 (groupsFor posTok insTok velTok durTok pitToks ++ tail)
          (aState barv fr tsc pos ns) =
        scanTokens nm 16 tail (aState barv fr tsc pos
          (ns ++ (pitToks.take (16 - ns.length)).map (decNote fr barv pos bv dur))) := by
  intro pitToks
  induction pitToks with
  | nil =>
    intro tail ns _ _
    simp [groupsFor]
  | cons t ts ih =>
    intro tail ns hts hlen
    have hgrp : groupsFor posTok insTok velTok durTok (t :: ts) ++ tail =
        noteGroup posTok insTok velTok durTok t ++
          (groupsFor posTok insTok velTok durTok ts ++ tail) := by
      simp [groupsFor, List.cons_bind]
    rw [hgrp]
    by_cases hfull : ns.length = 16
    · have hne : ns ≠ [] := by
        intro hnil
        rw [hnil] at hfull
        simp at hfull
      have hlk : (aState barv fr tsc pos ns).poly.lookup
          ((aState barv fr tsc pos ns).bar, pos, "drum") = some ns.length := by
        simp [aState, hne, List.lookup]
      rw [scanTokens_group nm 16 hg (hts t (List.mem_cons_self t ts)) _ _ _
        (noteStep_skip nm 16 _ hg hlk (le_of_eq hfull.symm))]
      rw [ih tail ns (fun u hu => hts u (List.mem_cons_of_mem t hu)) hlen]
      simp [hfull]
    · have hlt : ns.length < 16 := lt_of_le_of_ne hlen hfull
      have hadm : ¬(((aState barv fr tsc pos ns).poly.lookup
          ((aState barv fr tsc pos ns).bar, pos, "drum")).isSome = true ∧
          16 ≤ ((aState barv fr tsc pos ns).poly.lookup
            ((aState barv fr tsc pos ns).bar, pos, "drum")).getD 0) := by
        by_cases hne : ns = []
        · simp [aState, hne, List.lookup]
        · simp [aState, hne, List.lookup]
          omega
      have hstep := noteStep_admit nm 16 (aState barv fr tsc pos ns) hg
        (hts t (List.mem_cons_self t ts)) hbv hdur hadm
      have hid : ({ aState barv fr tsc pos ns with
          instruments := addNote (aState barv fr tsc pos ns).instruments "drum"
            (drumInstOf (aState barv fr tsc pos ns).instruments)
            (decNote (aState barv fr tsc pos ns).lastTl
              (aState barv fr tsc pos ns).bar pos bv dur t)
          poly := polySet (aState barv fr tsc pos ns).poly
            ((aState barv fr tsc pos ns).bar, pos, "drum")
            (((aState barv fr tsc pos ns).poly.lookup
              ((aState barv fr tsc pos ns).bar, pos, "drum")).getD 0 + 1) } : DecState) =
          aState barv fr tsc pos (ns ++ [decNote fr barv pos bv dur t]) := by
        by_cases hne : ns = []
        · subst hne
          simp [aState, addNote, polySet, drumInstOf, List.lookup]
        · simp [aState, hne, addNote, polySet, drumInstOf, List.lookup]
      rw [hid] at hstep
      rw [scanTokens_group nm 16 hg (hts t (List.mem_cons_self t ts)) _ _ _ hstep]
      rw [ih tail (ns ++ [decNote fr barv pos bv dur t])
        (fun u hu => hts u (List.mem_cons_of_mem t hu)) (by simp; omega)]
      have hlen2 : (ns ++ [decNote fr barv pos bv dur t]).length = ns.length + 1 := by
        simp
      have harith : 16 - ns.length = (16 - (ns.length + 1)) + 1 := by omega
      rw [hlen2, harith, List.take_succ_cons, List.map_cons]
      simp [List.append_assoc]

/-- Scanning a run of note groups at a second, distinct triple: the
saturated counter of the first triple does not interfere, and as long as
the second counter stays under the limit every note is admitted. -/
theorem scanB (nm : String → Option ℕ) {posTok' insTok velTok durTok : String}
    {pos pos' vi di : ℕ} {bv : ℤ} {dur : ℕ}
    (hg : groupShape posTok' insTok velTok durTok pos' vi di)
    (hbv : DEFAULT_VELOCITY_BINS.get? vi = some bv)
    (hdur : DEFAULT_DURATION_BINS.get? di = some dur)
    (hpp : pos ≠ pos') (barv : ℤ) (fr : RefFrame) (tsc : List TimeSig)
    (ns : List PNote) :
    ∀ (pitToks tail : List String) (ms : List PNote),
      (∀ u ∈ pitToks, pitHyp u) → ms.length + pitToks.length ≤ 16 →
      scanTokens nm 16 (groupsFor posTok' insTok velTok durTok pitToks ++ tail)
          (bState barv fr tsc pos pos' ns ms) =
        scanTokens nm 16 tail (bState barv fr tsc pos pos' ns
          (ms ++ pitToks.map (decNote fr barv pos' bv dur))) := by
  intro pitToks
  induction pitToks with
  | nil =>
    intro tail ms _ _
    simp [groupsFor]
  | cons t ts ih =>
    intro tail ms hts hlen
    have hgrp : groupsFor posTok' insTok velTok durTok (t :: ts) ++ tail =
        noteGroup posTok' insTok velTok durTok t ++
          (groupsFor posTok' insTok velTok durTok ts ++ tail) := by
      simp [groupsFor, List.cons_bind]
    rw [hgrp]
    have hmslt : ms.length < 16 := by
      simp only [List.length_cons] at hlen
      omega
    have hbeq : (((barv, pos', "drum") : ℤ × ℕ × String) ==
        ((barv, pos, "drum") : ℤ × ℕ × String)) = false := by
      rw [beq_eq_false_iff_ne]
      simp [Prod.ext_iff, Ne.symm hpp]
    have hkne : (((barv, pos, "drum") : ℤ × ℕ × String)) ≠ (barv, pos', "drum") := by
      simp [Prod.ext_iff, hpp]
    have hadm : ¬(((bState barv fr tsc pos pos' ns ms).poly.lookup
        ((bState barv fr tsc pos pos' ns ms).bar, pos', "drum")).isSome = true ∧
        16 ≤ ((bState barv fr tsc pos pos' ns ms).poly.lookup
          ((bState barv fr tsc pos pos' ns ms).bar, pos', "drum")).getD 0) := by
      by_cases hne : ms = []
      · simp [bState, hne, List.lookup, hbeq]
      · simp [bState, hne, List.lookup, hbeq]
        omega
    have hstep := noteStep_admit nm 16 (bState barv fr tsc pos pos' ns ms) hg
      (hts t (List.mem_cons_self t ts)) hbv hdur hadm
    have hid : ({ bState barv fr tsc pos pos' ns ms with
        instruments := addNote (bState barv fr tsc pos pos' ns ms).instruments "drum"
          (drumInstOf (bState barv fr tsc pos pos' ns ms).instruments)
          (decNote (bState barv fr tsc pos pos' ns ms).lastTl
            (bState barv fr tsc pos pos' ns ms).bar pos' bv dur t)
        poly := polySet (bState barv fr tsc pos pos' ns ms).poly
          ((bState barv fr tsc pos pos' ns ms).bar, pos', "drum")
          (((bState barv fr tsc pos pos' ns ms).poly.lookup
            ((bState barv fr tsc pos pos' ns ms).bar, pos', "drum")).getD 0 + 1) } : DecState) =
        bState barv fr tsc pos pos' ns (ms ++ [decNote fr barv pos' bv dur t]) := by
      by_cases hne : ms = []
      · subst hne
        simp [bState, addNote, polySet, drumInstOf, List.lookup, hbeq, hkne,
          List.append_assoc]
      · simp [bState, hne, addNote, polySet, drumInstOf, List.lookup, hbeq, hkne,
          List.append_assoc]
    rw [hid] at hstep
    rw [scanTokens_group nm 16 hg (hts t (List.mem_cons_self t ts)) _ _ _ hstep]
    rw [ih tail (ms ++ [decNote fr barv pos' bv dur t])
      (fun u hu => hts u (List.mem_cons_of_mem t hu))
      (by simp only [List.length_append, List.length_singleton, List.length_cons,
        List.length_nil] at hlen ⊢; omega)]
    simp [List.append_assoc]

/-- C3: the polyphony cap. For every stream made of a Bar token, then 20
well-formed five-token note groups resolving to the same
`(bar, position, instrument)` triple, then 4 such groups at a distinct
position of the same bar and instrument, decoding with
`polyphony_limit = 16` raises no error, admits exactly the first 16
same-triple notes in stream order (silently dropping the remaining 4),
and admits all 4 notes of the other triple — its counter is independent
of the saturated one. -/
theorem decoder_polyphony_cap (nm : String → Option ℕ) (bpm0 : ℚ)
    (num0 denom0 : ℤ) (barTok posTok posTok' insTok velTok durTok : String)
    (pos pos' vi di : ℕ) (bv : ℤ) (dur : ℕ) (pitsA pitsB : List String)
    (hgA : groupShape posTok insTok velTok durTok pos vi di)
    (hgB : groupShape posTok' insTok velTok durTok pos' vi di)
    (hbv : DEFAULT_VELOCITY_BINS.get? vi = some bv)
    (hdur : DEFAULT_DURATION_BINS.get? di = some dur)
    (hA : ∀ u ∈ pitsA, pitHyp u) (hB : ∀ u ∈ pitsB, pitHyp u)
    (hlA : pitsA.length = 20) (hlB : pitsB.length = 4) (hpp : pos ≠ pos')
    (hbar1 : isBarTok barTok = true) (hbar2 : barTok ≠ EOS_TOKEN)
    (hnots : strIn (TIME_SIGNATURE_KEY ++ "_") posTok = false)
    (hfil : (barTok :: (groupsFor posTok insTok velTok durTok pitsA ++
        groupsFor posTok' insTok velTok durTok pitsB)).filter
        (fun ev => strIn (TEMPO_KEY ++ "_") ev) = []) :
    remi2midi nm bpm0 num0 denom0 16
        (barTok :: (groupsFor posTok insTok velTok durTok pitsA ++
          groupsFor posTok' insTok velTok durTok pitsB)) =
      .ok ⟨bpm0, [⟨num0, denom0, 0⟩],
        [("drum", ⟨true, 0,
          (pitsA.take 16).map
            (decNote ⟨0, (0, 0), ⟨num0, denom0, 0⟩, bpm0⟩ 0 pos bv dur) ++
          pitsB.map
            (decNote ⟨0, (0, 0), ⟨num0, denom0, 0⟩, bpm0⟩ 0 pos' bv dur)⟩)]⟩ := by
  obtain ⟨t0, tsA, rfl⟩ : ∃ t0 tsA, pitsA = t0 :: tsA := by
    cases pitsA with
    | nil => simp at hlA
    | cons a b => exact ⟨a, b, rfl⟩
  set fr : RefFrame := ⟨0, (0, 0), ⟨num0, denom0, 0⟩, bpm0⟩ with hfr
  set tsc : List TimeSig := [⟨num0, denom0, 0⟩] with htsc
  set nsA : List PNote :=
    ((t0 :: tsA).take 16).map (decNote fr 0 pos bv dur) with hnsA
  unfold remi2midi
  have hbpm : initBpm bpm0 (barTok ::
      (groupsFor posTok insTok velTok durTok (t0 :: tsA) ++
        groupsFor posTok' insTok velTok durTok pitsB)) = .ok bpm0 := by
    unfold initBpm
    rw [hfil]
  rw [hbpm]
  dsimp only
  have hcons : groupsFor posTok insTok velTok durTok (t0 :: tsA) ++
      groupsFor posTok' insTok velTok durTok pitsB =
      posTok :: (insTok :: t0 :: velTok :: durTok ::
        (groupsFor posTok insTok velTok durTok tsA ++
          groupsFor posTok' insTok velTok durTok pitsB)) := by
    simp [groupsFor, noteGroup, List.cons_bind]
  have hbs : barStep (decInit bpm0 num0 denom0)
      (groupsFor posTok insTok velTok durTok (t0 :: tsA) ++
        groupsFor posTok' insTok velTok durTok pitsB) =
      .ok (aState 0 fr tsc pos []) := by
    rw [hcons]
    unfold barStep decInit
    dsimp only
    rw [if_neg (by rw [hnots]; exact Bool.false_ne_true)]
    simp [aState, hfr, htsc]
  have hscan1 : scanTokens nm 16 (barTok ::
      (groupsFor posTok insTok velTok durTok (t0 :: tsA) ++
        groupsFor posTok' insTok velTok durTok pitsB))
      (decInit bpm0 num0 denom0) =
      scanTokens nm 16 (groupsFor posTok insTok velTok durTok (t0 :: tsA) ++
        groupsFor posTok' insTok velTok durTok pitsB) (aState 0 fr tsc pos []) := by
    simp only [scanTokens]
    rw [if_neg hbar2]
    rw [if_pos hbar1]
    rw [hbs]
  rw [hscan1]
  rw [scanA nm hgA hbv hdur 0 fr tsc (t0 :: tsA)
    (groupsFor posTok' insTok velTok durTok pitsB) [] hA (by simp)]
  simp only [List.nil_append, List.length_nil, Nat.sub_zero]
  have hlen16 : nsA.length = 16 := by
    rw [hnsA, List.length_map, List.length_take, hlA]
    decide
  have hAB : aState 0 fr tsc pos nsA = bState 0 fr tsc pos pos' nsA [] := by
    have hne : nsA ≠ [] := by
      intro h0
      rw [h0] at hlen16
      simp at hlen16
    simp [aState, bState, hne, hlen16]
  rw [hAB]
  rw [show groupsFor posTok' insTok velTok durTok pitsB =
      groupsFor posTok' insTok velTok durTok pitsB ++ [] from
    (List.append_nil _).symm]
  rw [scanB nm hgB hbv hdur hpp 0 fr tsc nsA pitsB [] [] hB (by simp [hlB])]
  simp only [scanTokens]
  simp [bState]

/-- C3 witness: the spec's own 20-notes-limit-16 scenario, concretely:
`Bar_1`, then 20 drum-note groups at position 0, then 4 drum-note groups
at position 12; decoding admits the first 16 position-0 notes and all 4
position-12 notes. -/
theorem decoder_polyphony_cap_witness :
    (groupShape "Position_0" "Instrument_drum" "Velocity_16" "Duration_0" 0 16 0 ∧
      groupShape "Position_12" "Instrument_drum" "Velocity_16" "Duration_0" 12 16 0 ∧
      (∀ u ∈ exPitsA, pitHyp u) ∧ (∀ u ∈ exPitsB, pitHyp u) ∧
      exPitsA.length = 20 ∧ exPitsB.length = 4 ∧ (0 : ℕ) ≠ 12) ∧
    remi2midi (fun _ => none) 120 4 4 16
        ("Bar_1" ::
          (groupsFor "Position_0" "Instrument_drum" "Velocity_16" "Duration_0"
              exPitsA ++
            groupsFor "Position_12" "Instrument_drum" "Velocity_16" "Duration_0"
              exPitsB)) =
      .ok ⟨120, [⟨4, 4, 0⟩],
        [("drum", ⟨true, 0,
          (exPitsA.take 16).map (decNote ⟨0, (0, 0), ⟨4, 4, 0⟩, 120⟩ 0 0 64 1) ++
          exPitsB.map (decNote ⟨0, (0, 0), ⟨4, 4, 0⟩, 120⟩ 0 12 64 1)⟩)]⟩ :=
  ⟨⟨by with_unfolding_all decide, by with_unfolding_all decide,
      by with_unfolding_all decide, by with_unfolding_all decide,
      by decide, by decide, by decide⟩,
    decoder_polyphony_cap (fun _ => none) 120 4 4 "Bar_1" "Position_0"
      "Position_12" "Instrument_drum" "Velocity_16" "Duration_0" 0 12 16 0 64 1
      exPitsA exPitsB (by with_unfolding_all decide)
      (by with_unfolding_all decide) (by decide) (by decide)
      (by with_unfolding_all decide) (by with_unfolding_all decide)
      (by decide) (by decide) (by decide) (by decide) (by decide) (by decide)
      (by with_unfolding_all decide)⟩

end ECP
